import Mathlib

/-!
Verification of the INI codec of `packages/conf/src/ini.ts` (systemd-js).

The embedding models the TypeScript source faithfully:

* Strings are `List Char` (`Str`); JavaScript `String.prototype.trim`,
  `split("\n")`, `replaceAll`, `indexOf`, `startsWith`/`endsWith` and
  template-literal concatenation are given as explicit list functions.
* JavaScript objects (`INIData = Record<string, Record<string, …>>`) are
  association lists whose order models the ECMAScript own-property
  enumeration order: keys that are canonical array indices (decimal,
  no leading zero, value < 2^32 − 1) come first in ascending numeric
  order, followed by the remaining keys in insertion order.  Assigning
  an existing key keeps its position (`setIn`); assigning a fresh key
  inserts at the position `for…in` would enumerate it (`objInsert`).
  Prototype-chain exotica (e.g. a literal `__proto__` key) are outside
  the model.
* `Number(string)` is modelled by `jsNumber`, following the ECMAScript
  StringNumericLiteral grammar (decimal with optional fraction and
  exponent, `0x`/`0o`/`0b` integers, `Infinity`).  A finite numeric
  value is kept as an exact pair `(n : Int, k : Nat)` denoting
  `n / 10^k`, reduced so that `k = 0` or `10 ∤ n`; this canonical form
  makes payload equality decidable and matches the observable
  behaviour (`Number(String(x)) === x` for finite `x`).  IEEE-754
  overflow to infinity is modelled exactly by the bound
  `2^1024 − 2^970` used by `isFinite`; rounding of the mantissa is not
  modelled (it never changes the `Value` tag, only unobserved payload
  bits).
* `console.warn` (the advisory diagnostic for the ambiguous `1`/`0`
  booleans) is modelled by the predicate `readValueWarns`.
* Thrown `Error`s become the `PErr` error type of an `Except` result.
-/

deriving instance DecidableEq for Except

namespace Ini

abbrev Str := List Char

/-- Whitespace for `String.prototype.trim` and `Number()`:
ECMAScript WhiteSpace ∪ LineTerminator (by code point). -/
def wsChar (c : Char) : Bool :=
  c.toNat = 9 ∨ c.toNat = 10 ∨ c.toNat = 11 ∨ c.toNat = 12 ∨ c.toNat = 13 ∨
  c.toNat = 32 ∨ c.toNat = 160 ∨ c.toNat = 0x1680 ∨
  (0x2000 ≤ c.toNat ∧ c.toNat ≤ 0x200a) ∨
  c.toNat = 0x2028 ∨ c.toNat = 0x2029 ∨ c.toNat = 0x202f ∨
  c.toNat = 0x205f ∨ c.toNat = 0x3000 ∨ c.toNat = 0xfeff

/-- Drop leading JS whitespace. -/
def trimL (s : Str) : Str := s.dropWhile wsChar

/-- Drop trailing JS whitespace. -/
def trimR (s : Str) : Str := (s.reverse.dropWhile wsChar).reverse

/-- JavaScript `s.trim()`. -/
def jsTrim (s : Str) : Str := trimR (trimL s)

/-- JavaScript `s.split("\n")`. -/
def splitNL : Str → List Str
  | [] => [[]]
  | c :: t =>
    if c = '\n' then [] :: splitNL t
    else
      match splitNL t with
      | [] => [[c]]
      | l :: ls => (c :: l) :: ls

/-- JavaScript `s.replaceAll("\\\n", "")`: delete every (non-overlapping,
left to right) backslash–newline pair. -/
def remove2 : Str → Str
  | [] => []
  | [c] => [c]
  | a :: b :: t =>
    if a = '\\' ∧ b = '\n' then remove2 t
    else a :: remove2 (b :: t)

/-- JavaScript `s.replaceAll("\\\r\n", "")`: delete every backslash–CR–LF
triple. -/
def remove3 : Str → Str
  | a :: b :: c :: t =>
    if a = '\\' ∧ b = '\r' ∧ c = '\n' then remove3 t
    else a :: remove3 (b :: c :: t)
  | s => s

/-- First index of a character (JavaScript `indexOf` on a 1-char needle). -/
def idxOf (c : Char) : Str → Option Nat
  | [] => none
  | d :: t =>
    if d = c then some 0
    else (idxOf c t).map (· + 1)

/-- JavaScript `s.startsWith(c)` for a single character. -/
def headIs (s : Str) (c : Char) : Bool := s.head? = some c

/-- JavaScript `s.endsWith(c)` for a single character. -/
def lastIs (s : Str) (c : Char) : Bool := s.getLast? = some c

/-! ### The ECMAScript `Number(string)` conversion -/

def isDigit (c : Char) : Bool := '0' ≤ c ∧ c ≤ '9'

def digitVal (c : Char) : Nat := c.toNat - 48

def isHexDigit (c : Char) : Bool :=
  isDigit c ∨ ('a' ≤ c ∧ c ≤ 'f') ∨ ('A' ≤ c ∧ c ≤ 'F')

def hexVal (c : Char) : Nat :=
  if isDigit c then digitVal c
  else if 'a' ≤ c ∧ c ≤ 'f' then c.toNat - 87
  else c.toNat - 55

def natOfDigits (ds : Str) : Nat := ds.foldl (fun a c => 10 * a + digitVal c) 0

def natOfHex (ds : Str) : Nat := ds.foldl (fun a c => 16 * a + hexVal c) 0

def natOfOct (ds : Str) : Nat := ds.foldl (fun a c => 8 * a + digitVal c) 0

def natOfBin (ds : Str) : Nat := ds.foldl (fun a c => 2 * a + digitVal c) 0

/-- Reduce `(n, k)` (denoting `n / 10^k`) to canonical form: divide out
trailing factors of 10 from `n` while `k > 0`. -/
def canon (n : Int) : Nat → Int × Nat
  | 0 => (n, 0)
  | k + 1 => if n % 10 = 0 then canon (n / 10) k else (n, k + 1)

/-- Result of `Number(string)`: NaN, ±Infinity, or a finite value
`n / 10^k`. -/
inductive JNum where
  | nan
  | inf
  | fin (n : Int) (k : Nat)
deriving DecidableEq, Repr

/-- Build the finite value `sign * m * 10^e` in canonical form. -/
def mkFin (neg : Bool) (m : Nat) (e : Int) : JNum :=
  let n : Int := if neg then -(m : Int) else (m : Int)
  if 0 ≤ e then .fin (n * (10 : Int) ^ e.toNat) 0
  else
    let p := canon n (-e).toNat
    .fin p.1 p.2

/-- Exponent suffix of a decimal literal: empty, or `e`/`E` with optional
sign and at least one digit, consuming the whole rest. -/
def parseExp (rest : Str) : Option Int :=
  match rest with
  | [] => some 0
  | c :: r =>
    if c = 'e' ∨ c = 'E' then
      match r with
      | '+' :: ds => if ds ≠ [] ∧ ds.all isDigit then some (natOfDigits ds) else none
      | '-' :: ds => if ds ≠ [] ∧ ds.all isDigit then some (-(natOfDigits ds : Int)) else none
      | ds => if ds ≠ [] ∧ ds.all isDigit then some (natOfDigits ds) else none
    else none

/-- Unsigned part of a StrDecimalLiteral: `Infinity`, or digits with
optional fraction and exponent. -/
def parseDecU (neg : Bool) (u : Str) : JNum :=
  if u = ("Infinity").data then .inf
  else
    let ip := u.takeWhile isDigit
    let r1 := u.dropWhile isDigit
    match r1 with
    | '.' :: r2 =>
      let fp := r2.takeWhile isDigit
      let r3 := r2.dropWhile isDigit
      if ip = [] ∧ fp = [] then .nan
      else
        match parseExp r3 with
        | some e => mkFin neg (natOfDigits (ip ++ fp)) (e - fp.length)
        | none => .nan
    | _ =>
      if ip = [] then .nan
      else
        match parseExp r1 with
        | some e => mkFin neg (natOfDigits ip) e
        | none => .nan

/-- Signed StrDecimalLiteral. -/
def parseDec (t : Str) : JNum :=
  match t with
  | '+' :: u => parseDecU false u
  | '-' :: u => parseDecU true u
  | u => parseDecU false u

/-- `Number(string)` per the StringNumericLiteral grammar. -/
def jsNumber (s : Str) : JNum :=
  let t := jsTrim s
  match t with
  | [] => .fin 0 0
  | '0' :: c :: rest =>
    if c = 'x' ∨ c = 'X' then
      if rest ≠ [] ∧ rest.all isHexDigit then .fin (natOfHex rest) 0 else .nan
    else if c = 'o' ∨ c = 'O' then
      if rest ≠ [] ∧ rest.all (fun d => '0' ≤ d ∧ d ≤ '7') then .fin (natOfOct rest) 0 else .nan
    else if c = 'b' ∨ c = 'B' then
      if rest ≠ [] ∧ rest.all (fun d => d = '0' ∨ d = '1') then .fin (natOfBin rest) 0 else .nan
    else parseDec t
  | _ => parseDec t

/-- Smallest magnitude that rounds to `Infinity` in an IEEE-754 double:
`2^1024 − 2^970` (written as a literal so that kernel evaluation of
concrete inputs stays cheap; see `finBound_eq`).
`isFinite(Number(s))` holds iff `|value| < finBound`. -/
def finBound : Nat := 179769313486231580793728971405303415079934132710037826936173778980444968292764750946649017977587207096330286416692887910946555547851940402630657488671505820681908902000708383676273854845817711531764475730270069855571366959622842914819860834936475292719074168444365510704342711559699508093042880177904174497792

/-- `isFinite` for the exact value `n / 10^k`. -/
def finOk (n : Int) (k : Nat) : Bool := n.natAbs < finBound * 10 ^ k

theorem finBound_eq : finBound = 2 ^ 1024 - 2 ^ 970 := by norm_num [finBound]

/-! ### Values, sections, documents -/

/-- The value union stored in `INIData`:
`string[] | boolean | number | string`.  A number is the canonical pair
`(n, k)` for `n / 10^k`. -/
inductive V where
  | str (s : Str)
  | bool (b : Bool)
  | num (n : Int) (k : Nat)
  | list (l : List Str)
deriving DecidableEq, Repr

/-- JavaScript truthiness of a stored value (`if (existingValue)`). -/
def isTruthy : V → Bool
  | .str s => s ≠ []
  | .bool b => b
  | .num n _ => n ≠ 0
  | .list _ => true

abbrev Sec := List (Str × V)
abbrev Doc := List (Str × Sec)

/-- First value bound to a key. -/
def alFind? {β : Type} : List (Str × β) → Str → Option β
  | [], _ => none
  | (k, v) :: t, key => if k = key then some v else alFind? t key

/-- Replace the value of an existing key, keeping its position. -/
def setIn {β : Type} : List (Str × β) → Str → β → List (Str × β)
  | [], _, _ => []
  | (k, v) :: t, key, w => if k = key then (k, w) :: t else (k, v) :: setIn t key w

/-- Canonical array index per ECMAScript property order: all decimal
digits, no leading zero (except `"0"`), value below `2^32 − 1`. -/
def arrIdx? (s : Str) : Option Nat :=
  if s ≠ [] ∧ s.all isDigit ∧ (s.head? ≠ some '0' ∨ s = ['0']) then
    let n := natOfDigits s
    if n < 2 ^ 32 - 1 then some n else none
  else none

/-- Whether key `k` may enumerate before key `k'` (array indices come
first, in ascending numeric order). -/
def keyLe (k k' : Str) : Bool :=
  match arrIdx? k, arrIdx? k' with
  | some n, some n' => n ≤ n'
  | some _, none => true
  | none, some _ => false
  | none, none => true

/-- Insert a fresh key at the position `for…in` enumeration gives it:
array-index keys go into the ascending numeric prefix, other keys are
appended. -/
def objInsert {β : Type} : List (Str × β) → Str → β → List (Str × β)
  | [], key, w => [(key, w)]
  | (k, v) :: t, key, w =>
    if keyLe k key then (k, v) :: objInsert t key w
    else (key, w) :: (k, v) :: t

/-- JavaScript property assignment `o[key] = w`. -/
def jsSet {β : Type} (l : List (Str × β)) (key : Str) (w : β) : List (Str × β) :=
  if (alFind? l key).isSome then setIn l key w else objInsert l key w

/-! ### The codec -/

/-- Errors thrown by the codec (`throw new Error(...)`). -/
inductive PErr where
  | emptyInput
  | invalidLine (line : Str)
  | invalidIni (raw : Str)
  | invalidValue (key : Str)
  | notObject
  | sectionNotObject (name : Str)
  | invalidKeyValue (key : Str)
deriving DecidableEq, Repr

/-- `readValue` of `ini.ts`: boolean spellings first (case-sensitive),
then `1`/`0` with a warning, then `Number` if finite, else the trimmed
string. -/
def readValue (value : Str) : V :=
  let trimmed := jsTrim value
  if trimmed = ("true").data ∨ trimmed = ("yes").data ∨ trimmed = ("on").data then
    .bool true
  else if trimmed = ("1").data then .bool true
  else if trimmed = ("false").data ∨ trimmed = ("no").data ∨ trimmed = ("off").data then
    .bool false
  else if trimmed = ("0").data then .bool false
  else
    match jsNumber trimmed with
    | .fin n k => if finOk n k then .num n k else .str trimmed
    | _ => .str trimmed

/-- The branches of `readValue` that call `console.warn` (ambiguous
boolean `1`/`0`). -/
def readValueWarns (value : Str) : Bool :=
  let trimmed := jsTrim value
  ¬(trimmed = ("true").data ∨ trimmed = ("yes").data ∨ trimmed = ("on").data) ∧
  (trimmed = ("1").data ∨ trimmed = ("0").data)

/-- The repeated-key block of `fromString`: promotion to a list for
string values, `push` onto an existing list, error on a truthy
non-string existing value, plain assignment otherwise. -/
def insertKV (sec : Sec) (key : Str) (pv : V) : Except PErr Sec :=
  match pv with
  | .str s =>
    match alFind? sec key with
    | some ex =>
      if isTruthy ex then
        match ex with
        | .list l => .ok (jsSet sec key (.list (l ++ [s])))
        | .str e => .ok (jsSet sec key (.list [e, s]))
        | _ => .error (.invalidValue key)
      else .ok (jsSet sec key (.str s))
    | none => .ok (jsSet sec key (.str s))
  | _ => .ok (jsSet sec key pv)

/-- One iteration of the line loop of `fromString`. -/
def processLine (doc : Doc) (cur : Option Str) (l : Str) (raw : Str) :
    Except PErr (Doc × Option Str) :=
  if headIs l '[' ∧ lastIs l ']' then
    let name := (l.drop 1).dropLast
    .ok (jsSet doc name [], some name)
  else
    match idxOf '=' l with
    | none => .error (.invalidLine l)
    | some i =>
      let key := jsTrim (l.take i)
      let value := jsTrim (l.drop (i + 1))
      if key = [] ∨ value = [] then .error (.invalidLine l)
      else
        match cur with
        | none => .error (.invalidIni raw)
        | some cs =>
          if cs = [] ∨ raw = [] then .error (.invalidIni raw)
          else
            let sec := (alFind? doc cs).getD []
            match insertKV sec key (readValue value) with
            | .ok sec2 => .ok (jsSet doc cs sec2, cur)
            | .error e => .error e

/-- The `for (const line of lines)` loop. -/
def runLines : List Str → Doc → Option Str → Str → Except PErr Doc
  | [], doc, _, _ => .ok doc
  | l :: ls, doc, cur, raw =>
    match processLine doc cur l raw with
    | .ok (d, c) => runLines ls d c raw
    | .error e => .error e

/-- Line cleanup of `fromString`: split on `\n`, trim each line, drop
blank lines and full-line `#`/`;` comments. -/
def cleanLines (raw : Str) : List Str :=
  ((((splitNL raw).map jsTrim).filter (fun l => decide (l.length > 0))).filter
    (fun l => ¬headIs l '#')).filter (fun l => ¬headIs l ';')

/-- `INI.fromString` of `ini.ts`. -/
def fromString (data : Str) : Except PErr Doc :=
  if data = [] then .error .emptyInput
  else
    let raw := remove3 (remove2 (jsTrim data))
    runLines (cleanLines raw) [] none raw

/-! ### Serialization -/

/-- Decimal digits of a natural number (one fuel step per recursive
division by 10). -/
def natDigitsAux : Nat → Nat → Str
  | 0, _ => []
  | fuel + 1, n =>
    if n = 0 then [] else natDigitsAux fuel (n / 10) ++ [Char.ofNat (48 + n % 10)]

/-- Decimal representation of a natural number, no leading zeros. -/
def natToDigits (n : Nat) : Str :=
  if n = 0 then ['0'] else natDigitsAux (n + 1) n

/-- Template-literal rendering `${number}` of the canonical finite value
`n / 10^k`: the exact decimal expansion (sign, digits, and a decimal
point when `k > 0`). -/
def numToStr (n : Int) (k : Nat) : Str :=
  let sign : Str := if n < 0 then ['-'] else []
  let mag := natToDigits n.natAbs
  if k = 0 then sign ++ mag
  else
    let padded := if mag.length ≤ k then List.replicate (k + 1 - mag.length) '0' ++ mag else mag
    sign ++ padded.take (padded.length - k) ++ ['.'] ++ padded.drop (padded.length - k)

/-- The lines pushed for one key by `toString` (each ends in `\n`). -/
def renderVal (k : Str) : V → List Str
  | .list l => l.map (fun v => k ++ '=' :: v ++ ['\n'])
  | .bool true => [k ++ '=' :: ("yes\n").data]
  | .bool false => [k ++ '=' :: ("no\n").data]
  | .str s => [k ++ '=' :: s ++ ['\n']]
  | .num n kk => [k ++ '=' :: numToStr n kk ++ ['\n']]

/-- The text pushed for one section: header line, key lines, and a
blank separator line. -/
def sectionPiece (n : Str) (sec : Sec) : Str :=
  ('[' :: n ++ (("]\n").data)) ++
    (sec.map (fun p => (renderVal p.1 p.2).flatten)).flatten ++ ['\n']

/-- `INI.toString` of `ini.ts`: concatenate all pieces and trim. -/
def toString (doc : Doc) : Str :=
  jsTrim ((doc.map (fun p => sectionPiece p.1 p.2)).flatten)

/-! ### `INI.fromObject` -/

/-- Untyped JavaScript values as far as `fromObject` inspects them.
Numbers and nested structure beyond what the validator looks at are
immaterial, so numbers reuse the canonical pair. -/
inductive JSVal where
  | vnull
  | vundef
  | vbool (b : Bool)
  | vnum (n : Int) (k : Nat)
  | vstr (s : Str)
  | varr (l : List JSVal)
  | vobj (o : List (Str × JSVal))

instance : Inhabited JSVal := ⟨.vnull⟩

/-- The per-entry check of `fromObject`: string, undefined, number,
boolean, or an array whose every element is a string. -/
def okSectionValue : JSVal → Bool
  | .vstr _ => true
  | .vundef => true
  | .vnum _ _ => true
  | .vbool _ => true
  | .varr l => l.all (fun x => match x with | .vstr _ => true | _ => false)
  | _ => false

/-- Validate the entries of one section in order. -/
def checkEntries : List (Str × JSVal) → Except PErr Unit
  | [] => .ok ()
  | (k, v) :: t => if okSectionValue v then checkEntries t else .error (.invalidKeyValue k)

/-- Validate the sections in order. -/
def checkSections : List (Str × JSVal) → Except PErr Unit
  | [] => .ok ()
  | (name, sv) :: t =>
    match sv with
    | .vobj so =>
      match checkEntries so with
      | .ok _ => checkSections t
      | .error e => .error e
    | _ => .error (.sectionNotObject name)

/-- `INI.fromObject` of `ini.ts`: reject non-objects (including `null`
and arrays), then validate every section and entry; on success the INI
wraps the data unchanged. -/
def fromObject (data : JSVal) : Except PErr JSVal :=
  match data with
  | .vobj o =>
    match checkSections o with
    | .ok _ => .ok data
    | .error e => .error e
  | _ => .error .notObject

/-! ### Association-list lemmas -/

theorem alFind?_setIn_self {β : Type} (l : List (Str × β)) (k : Str) (w : β)
    (h : (alFind? l k).isSome) : alFind? (setIn l k w) k = some w := by
  induction l with
  | nil => simp [alFind?] at h
  | cons p t ih =>
    obtain ⟨a, b⟩ := p
    by_cases hk : a = k
    · simp [setIn, alFind?, hk]
    · simp only [alFind?, hk, if_false] at h
      simp [setIn, alFind?, hk, ih h]

theorem alFind?_setIn_other {β : Type} (l : List (Str × β)) (k m : Str) (w : β)
    (h : m ≠ k) : alFind? (setIn l k w) m = alFind? l m := by
  induction l with
  | nil => simp [setIn]
  | cons p t ih =>
    obtain ⟨a, b⟩ := p
    by_cases hk : a = k
    · subst hk
      have hm : ¬a = m := fun hh => h (hh ▸ rfl)
      simp [setIn, alFind?, hm]
    · simp only [setIn, hk, if_false, alFind?]
      by_cases hm : a = m
      · simp [hm]
      · simp [hm, ih]

theorem alFind?_objInsert_self {β : Type} (l : List (Str × β)) (k : Str) (w : β)
    (h : alFind? l k = none) : alFind? (objInsert l k w) k = some w := by
  induction l with
  | nil => simp [objInsert, alFind?]
  | cons p t ih =>
    obtain ⟨a, b⟩ := p
    by_cases hk : a = k
    · simp [alFind?, hk] at h
    · simp only [alFind?, hk, if_false] at h
      simp only [objInsert]
      by_cases hle : keyLe a k
      · simp [hle, alFind?, hk, ih h]
      · simp [hle, alFind?]

theorem alFind?_objInsert_other {β : Type} (l : List (Str × β)) (k m : Str) (w : β)
    (h : m ≠ k) : alFind? (objInsert l k w) m = alFind? l m := by
  have hk : ¬k = m := fun hh => h hh.symm
  induction l with
  | nil => simp [objInsert, alFind?, hk]
  | cons p t ih =>
    obtain ⟨a, b⟩ := p
    simp only [objInsert]
    by_cases hle : keyLe a k
    · simp only [hle, if_true, alFind?]
      by_cases hm : a = m
      · simp [hm]
      · simp [hm, ih]
    · simp [hle, alFind?, hk]

theorem keys_setIn {β : Type} (l : List (Str × β)) (k : Str) (w : β) :
    (setIn l k w).map Prod.fst = l.map Prod.fst := by
  induction l with
  | nil => simp [setIn]
  | cons p t ih =>
    obtain ⟨a, b⟩ := p
    by_cases hk : a = k
    · simp [setIn, hk]
    · simp [setIn, hk, ih]

theorem jsSet_present {β : Type} (l : List (Str × β)) (k : Str) (w : β)
    (h : (alFind? l k).isSome) : jsSet l k w = setIn l k w := by
  simp [jsSet, h]

theorem jsSet_absent {β : Type} (l : List (Str × β)) (k : Str) (w : β)
    (h : alFind? l k = none) : jsSet l k w = objInsert l k w := by
  simp [jsSet, h]

theorem alFind?_jsSet_self {β : Type} (l : List (Str × β)) (k : Str) (w : β) :
    alFind? (jsSet l k w) k = some w := by
  unfold jsSet
  cases h : alFind? l k with
  | some v => simpa using alFind?_setIn_self l k w (by simp [h])
  | none => simpa using alFind?_objInsert_self l k w h

theorem alFind?_jsSet_other {β : Type} (l : List (Str × β)) (k m : Str) (w : β)
    (h : m ≠ k) : alFind? (jsSet l k w) m = alFind? l m := by
  unfold jsSet
  cases hf : alFind? l k with
  | some v => simpa using alFind?_setIn_other l k m w h
  | none => simpa using alFind?_objInsert_other l k m w h

/-! ### The error cases of the parser -/

theorem insertKV_ne_empty (sec : Sec) (key : Str) (pv : V) :
    insertKV sec key pv ≠ .error .emptyInput := by
  unfold insertKV
  cases pv <;> simp
  case str s =>
    cases h : alFind? sec key <;> simp
    case some ex =>
      cases hT : isTruthy ex <;> simp
      cases ex <;> simp

theorem processLine_ne_empty (doc : Doc) (cur : Option Str) (l raw : Str) :
    processLine doc cur l raw ≠ .error .emptyInput := by
  unfold processLine
  by_cases hh : headIs l '[' ∧ lastIs l ']'
  · simp [hh]
  · simp only [hh, if_false]
    cases hi : idxOf '=' l with
    | none => simp
    | some i =>
      by_cases hkv : jsTrim (l.take i) = [] ∨ jsTrim (l.drop (i + 1)) = []
      · simp [hkv]
      · simp only [hkv, if_false]
        cases cur with
        | none => simp
        | some cs =>
          by_cases hcs : cs = [] ∨ raw = []
          · simp [hcs]
          · simp only [hcs, if_false]
            cases hins : insertKV ((alFind? doc cs).getD []) (jsTrim (l.take i))
                (readValue (jsTrim (l.drop (i + 1)))) with
            | ok s2 => simp
            | error e =>
              exact fun he => insertKV_ne_empty _ _ _ (hins.trans (by simpa using he))

theorem runLines_ne_empty (ls : List Str) (doc : Doc) (cur : Option Str) (raw : Str) :
    runLines ls doc cur raw ≠ .error .emptyInput := by
  induction ls generalizing doc cur with
  | nil => simp [runLines]
  | cons l t ih =>
    simp only [runLines]
    cases hp : processLine doc cur l raw with
    | ok p => exact ih p.1 p.2
    | error e =>
      simp only
      intro he
      exact processLine_ne_empty doc cur l raw (by rw [hp]; exact congrArg Except.error (by injection he))

/-! ### Validity predicate for `fromObject` (the claim's characterization) -/

/-- A value allowed as a section entry per the specification: a string,
a number, a boolean, `undefined`, or an array all of whose elements are
strings. -/
def ValidEntry (v : JSVal) : Prop :=
  (∃ s, v = .vstr s) ∨ v = .vundef ∨ (∃ n k, v = .vnum n k) ∨ (∃ b, v = .vbool b) ∨
  (∃ l, v = .varr l ∧ ∀ x ∈ l, ∃ s, x = .vstr s)

/-- Data accepted per the specification: a non-null, non-array object
whose every section value is a non-null, non-array object whose every
entry is a valid section entry. -/
def ValidData (d : JSVal) : Prop :=
  ∃ o, d = .vobj o ∧ ∀ p ∈ o, ∃ so, p.2 = .vobj so ∧ ∀ q ∈ so, ValidEntry q.2

theorem okSectionValue_iff (v : JSVal) : okSectionValue v = true ↔ ValidEntry v := by
  cases v <;> simp [okSectionValue, ValidEntry]
  case varr l =>
    constructor
    · intro h x hx
      have := h x hx
      cases x <;> simp_all
    · intro h x hx
      obtain ⟨s, hs⟩ := h x hx
      simp [hs]

theorem checkEntries_iff (so : List (Str × JSVal)) :
    checkEntries so = .ok () ↔ ∀ q ∈ so, ValidEntry q.2 := by
  induction so with
  | nil => simp [checkEntries]
  | cons p t ih =>
    obtain ⟨k, v⟩ := p
    by_cases h : okSectionValue v
    · simp [checkEntries, h, ih, (okSectionValue_iff v).mp h]
    · simp only [checkEntries, h, if_false]
      constructor
      · intro hc; cases hc
      · intro hc
        exact absurd ((okSectionValue_iff v).mpr (hc (k, v) (by simp))) (by simpa using h)

theorem checkSections_iff (o : List (Str × JSVal)) :
    checkSections o = .ok () ↔
      ∀ p ∈ o, ∃ so, p.2 = .vobj so ∧ ∀ q ∈ so, ValidEntry q.2 := by
  induction o with
  | nil => simp [checkSections]
  | cons p t ih =>
    obtain ⟨name, sv⟩ := p
    cases sv with
    | vobj so =>
      cases hc : checkEntries so with
      | ok u =>
        obtain ⟨⟩ := u
        have hall := (checkEntries_iff so).mp hc
        simp only [checkSections, hc]
        rw [ih]
        constructor
        · intro h p hp
          rcases List.mem_cons.mp hp with hp1 | hp2
          · subst hp1; exact ⟨so, rfl, hall⟩
          · exact h p hp2
        · intro h p hp
          exact h p (List.mem_cons_of_mem _ hp)
      | error e =>
        simp only [checkSections, hc]
        constructor
        · intro h; exact absurd h (by simp)
        · intro h
          obtain ⟨so2, hso2, hall⟩ := h (name, .vobj so) (by simp)
          obtain rfl : so = so2 := by simpa using hso2
          rw [(checkEntries_iff so).mpr hall] at hc
          cases hc
    | vnull =>
      simp only [checkSections]
      constructor
      · intro h; exact absurd h (by simp)
      · intro h
        obtain ⟨so, hso, _⟩ := h (name, .vnull) (by simp)
        exact absurd hso (by simp)
    | vundef =>
      simp only [checkSections]
      constructor
      · intro h; exact absurd h (by simp)
      · intro h
        obtain ⟨so, hso, _⟩ := h (name, .vundef) (by simp)
        exact absurd hso (by simp)
    | vbool b =>
      simp only [checkSections]
      constructor
      · intro h; exact absurd h (by simp)
      · intro h
        obtain ⟨so, hso, _⟩ := h (name, .vbool b) (by simp)
        exact absurd hso (by simp)
    | vnum n k =>
      simp only [checkSections]
      constructor
      · intro h; exact absurd h (by simp)
      · intro h
        obtain ⟨so, hso, _⟩ := h (name, .vnum n k) (by simp)
        exact absurd hso (by simp)
    | vstr s =>
      simp only [checkSections]
      constructor
      · intro h; exact absurd h (by simp)
      · intro h
        obtain ⟨so, hso, _⟩ := h (name, .vstr s) (by simp)
        exact absurd hso (by simp)
    | varr l =>
      simp only [checkSections]
      constructor
      · intro h; exact absurd h (by simp)
      · intro h
        obtain ⟨so, hso, _⟩ := h (name, .varr l) (by simp)
        exact absurd hso (by simp)

/-! ### The specification's coercion cascade -/

/-- The coercion cascade as the specification states it (rule 5 amended
from "decimal number" to "ECMAScript numeric literal"): boolean words,
ambiguous `1`/`0`, finite number, else the string itself. -/
def coerceSpec (t : Str) : V :=
  if t = ("true").data ∨ t = ("yes").data ∨ t = ("on").data then .bool true
  else if t = ("1").data then .bool true
  else if t = ("false").data ∨ t = ("no").data ∨ t = ("off").data then .bool false
  else if t = ("0").data then .bool false
  else
    match jsNumber t with
    | .fin n k => if finOk n k then .num n k else .str t
    | _ => .str t

/-! ### Claim theorems (C2, C3, C4, C5, C6, C8, C10) -/

/-- C2 counterexample: parsing `[Service]` with `Foo=1` then `Foo=2`
does not raise any error — the claim says it raises
`RepeatedNonStringKeyError` — and instead yields `Foo ↦ Number 2`. -/
theorem C2_counterexample :
    fromString (("[Service]\nFoo=1\nFoo=2").data) =
      .ok [(("Service").data, [(("Foo").data, V.num 2 0)])] := by decide

/-- C2 (amended): the repeated-key error is raised exactly when the new
coerced value is a String and the key's existing value is `true` or a
nonzero Number; the error names only the key; any non-String new value
silently overwrites the previous one. -/
theorem C2_amended :
    ∀ (sec : Sec) (key : Str) (pv : V),
      ((∃ e, insertKV sec key pv = .error e) ↔
        ((∃ s, pv = .str s) ∧ ∃ ex, alFind? sec key = some ex ∧
          (ex = .bool true ∨ ∃ n kk, ex = .num n kk ∧ n ≠ 0))) ∧
      (∀ e, insertKV sec key pv = .error e → e = .invalidValue key) ∧
      (∀ (n : Int) (kk : Nat), pv = .num n kk →
        insertKV sec key pv = .ok (jsSet sec key (.num n kk))) := by
  intro sec key pv
  cases pv with
  | str s =>
    cases hf : alFind? sec key with
    | none => simp [insertKV, hf]
    | some ex =>
      cases ex with
      | str e =>
        by_cases he : e = []
        · simp [insertKV, hf, isTruthy, he]
        · simp [insertKV, hf, isTruthy, he]
      | bool b =>
        cases b with
        | true => simp [insertKV, hf, isTruthy]
        | false => simp [insertKV, hf, isTruthy]
      | num n kk =>
        by_cases hn : n = 0
        · simp [insertKV, hf, isTruthy, hn]
        · simp [insertKV, hf, isTruthy, hn]
      | list l => simp [insertKV, hf, isTruthy]
  | bool b => simp [insertKV]
  | num n kk => simp [insertKV]
  | list l => simp [insertKV]

theorem C2_witness :
    ∃ e, insertKV [(("Foo").data, V.bool true)] (("Foo").data)
      (V.str (("x").data)) = .error e :=
  (C2_amended [(("Foo").data, V.bool true)] (("Foo").data) (V.str (("x").data))).1.mpr
    ⟨⟨("x").data, rfl⟩, ⟨V.bool true, by decide, Or.inl rfl⟩⟩

/-- C3 counterexample: re-encountering `[S]` resets the section: the key
`A` parsed under the first occurrence is gone, only `C` (parsed after the
second occurrence) remains — the claim says `A` and `C` accumulate.  The
section does keep its original position (before `T`). -/
theorem C3_counterexample :
    fromString (("[S]\nA=x\n[T]\nB=y\n[S]\nC=z").data) =
      .ok [(("S").data, [(("C").data, V.str (("z").data))]),
           (("T").data, [(("B").data, V.str (("y").data))])] := by decide

theorem getLast?_cons_concat (c : Char) :
    ∀ (n : Str) (a : Char), (a :: (n ++ [c])).getLast? = some c := by
  intro n
  induction n with
  | nil => intro a; rfl
  | cons x t ih =>
    intro a
    rw [List.cons_append, List.getLast?_cons_cons]
    exact ih x

/-- C3 (amended): re-encountering a `[Section]` header assigns a fresh
empty section under the name: its content is reset, its position and
the other sections are unchanged. -/
theorem C3_amended :
    ∀ (doc : Doc) (cur : Option Str) (raw n : Str),
      processLine doc cur ('[' :: (n ++ [']'])) raw = .ok (jsSet doc n [], some n) ∧
      alFind? (jsSet doc n ([] : Sec)) n = some [] ∧
      ((alFind? doc n).isSome → (jsSet doc n ([] : Sec)).map Prod.fst = doc.map Prod.fst) ∧
      (∀ m, m ≠ n → alFind? (jsSet doc n ([] : Sec)) m = alFind? doc m) := by
  intro doc cur raw n
  refine ⟨?_, alFind?_jsSet_self doc n [], ?_, ?_⟩
  · unfold processLine
    have h1 : headIs ('[' :: (n ++ [']'])) '[' = true := by simp [headIs]
    have h2 : lastIs ('[' :: (n ++ [']'])) ']' = true := by
      simp [lastIs, getLast?_cons_concat]
    have h3 : (('[' :: (n ++ [']'])).drop 1).dropLast = n := by
      simp
    rw [if_pos ⟨h1, h2⟩]
    simp only [h3]
  · intro hs
    rw [jsSet_present doc n [] hs]
    exact keys_setIn doc n []
  · intro m hm
    exact alFind?_jsSet_other doc n m [] hm

theorem C3_witness :
    processLine ([] : Doc) none ('[' :: ((("S").data) ++ [']'])) [] =
        .ok (jsSet ([] : Doc) (("S").data) [], some (("S").data)) ∧
      alFind? (jsSet [((("S").data), [((("A").data), V.str (("x").data))])]
        (("S").data) ([] : Sec)) (("S").data) = some [] :=
  ⟨(C3_amended [] none [] (("S").data)).1,
   (C3_amended [((("S").data), [((("A").data), V.str (("x").data))])] none []
     (("S").data)).2.1⟩

/-- C4 counterexample: a whitespace-only input is empty after trimming
but parses successfully to the empty Document instead of raising
`EmptyInputError`. -/
theorem C4_counterexample :
    fromString ((" ").data) = .ok [] ∧ jsTrim ((" ").data) = [] := by decide

/-- C4 (amended): `fromString` raises the empty-input error exactly when
the input is the empty string; no other input (including whitespace-only
input) raises it. -/
theorem C4_amended :
    ∀ s : Str, fromString s = .error .emptyInput ↔ s = [] := by
  intro s
  by_cases h : s = []
  · simp [fromString, h]
  · unfold fromString
    rw [if_neg h]
    exact ⟨fun hr => absurd hr (runLines_ne_empty _ _ _ _), fun h2 => absurd h2 h⟩

theorem C4_witness : fromString [] = .error .emptyInput :=
  (C4_amended []).mpr rfl

/-- C5 counterexample: `coerce("0x10")` yields `Number(16)` — under the
claim's rule list a hexadecimal token is not a decimal number, so rule 6
would demand `String("0x10")`. -/
theorem C5_counterexample :
    readValue (("0x10").data) = V.num 16 0 ∧
      V.num 16 0 ≠ V.str (("0x10").data) := by decide

set_option maxRecDepth 4000 in
/-- C5 (amended): the coercion follows the cascade with rule 5 reading
"parses as a finite ECMAScript numeric literal" (decimal integer or
float, or `0x`/`0o`/`0b` integer): boolean words case-sensitively, `1`
and `0` as booleans with a warning, finite numbers, else the string
itself; it is total and trims its argument first. -/
theorem C5_amended :
    (∀ s : Str, readValue s = coerceSpec (jsTrim s)) ∧
    readValue (("TRUE").data) = V.str (("TRUE").data) ∧
    readValue (("yes").data) = V.bool true ∧
    readValue (("true").data) = V.bool true ∧
    readValue (("on").data) = V.bool true ∧
    readValue (("1").data) = V.bool true ∧
    readValue (("false").data) = V.bool false ∧
    readValue (("no").data) = V.bool false ∧
    readValue (("off").data) = V.bool false ∧
    readValue (("0").data) = V.bool false ∧
    readValueWarns (("1").data) = true ∧
    readValueWarns (("0").data) = true ∧
    readValueWarns (("2").data) = false ∧
    readValueWarns (("yes").data) = false ∧
    readValue (("3.5").data) = V.num 35 1 ∧
    readValue (("2e308").data) = V.str (("2e308").data) ∧
    readValue (("Infinity").data) = V.str (("Infinity").data) ∧
    readValue (("abc def").data) = V.str (("abc def").data) := by
  refine ⟨fun s => rfl, ?_⟩
  decide

/-- C6: repeated string-valued keys promote to an ordered list: an
existing (non-empty) string becomes a two-element list, an existing list
is appended to, and the concrete two- and three-occurrence inputs give
`["a","b"]` and `["a","b","c"]`. -/
theorem C6_promotion :
    (∀ (sec : Sec) (key e s : Str), alFind? sec key = some (.str e) → e ≠ [] →
       insertKV sec key (.str s) = .ok (setIn sec key (.list [e, s]))) ∧
    (∀ (sec : Sec) (key s : Str) (l : List Str), alFind? sec key = some (.list l) →
       insertKV sec key (.str s) = .ok (setIn sec key (.list (l ++ [s])))) ∧
    fromString (("[S]\nKey=a\nKey=b").data) =
      .ok [(("S").data, [(("Key").data, V.list [("a").data, ("b").data])])] ∧
    fromString (("[S]\nKey=a\nKey=b\nKey=c").data) =
      .ok [(("S").data, [(("Key").data, V.list [("a").data, ("b").data, ("c").data])])] := by
  refine ⟨?_, ?_, by decide, by decide⟩
  · intro sec key e s hf he
    have hs : (alFind? sec key).isSome := by simp [hf]
    simp [insertKV, hf, isTruthy, he, jsSet_present sec key _ hs]
  · intro sec key s l hf
    have hs : (alFind? sec key).isSome := by simp [hf]
    simp [insertKV, hf, isTruthy, jsSet_present sec key _ hs]

theorem C6_witness :
    insertKV [(("K").data, V.str (("a").data))] (("K").data) (V.str (("b").data)) =
      .ok (setIn [(("K").data, V.str (("a").data))] (("K").data)
        (V.list [("a").data, ("b").data])) :=
  C6_promotion.1 [(("K").data, V.str (("a").data))] (("K").data) (("a").data)
    (("b").data) (by decide) (by decide)

/-- C8: serialization renders `Bool(true)` as `key=yes`, `Bool(false)`
as `key=no`, and a string list as one `key=value` line per element in
list order; concretely whole documents render with these spellings. -/
theorem C8_rendering :
    (∀ k : Str, renderVal k (.bool true) = [k ++ '=' :: ("yes\n").data]) ∧
    (∀ k : Str, renderVal k (.bool false) = [k ++ '=' :: ("no\n").data]) ∧
    (∀ (k : Str) (l : List Str), renderVal k (.list l) = l.map (fun v => k ++ '=' :: v ++ ['\n'])) ∧
    Ini.toString [(("S").data, [(("K").data, V.bool true)])] = ("[S]\nK=yes").data ∧
    Ini.toString [(("S").data, [(("K").data, V.bool false)])] = ("[S]\nK=no").data ∧
    Ini.toString [(("S").data, [(("L").data, V.list [("a").data, ("b").data])])] =
      ("[S]\nL=a\nL=b").data :=
  ⟨fun k => rfl, fun k => rfl, fun k l => rfl, by decide, by decide, by decide⟩

/-- C10: `fromObject` succeeds, returning the data unchanged, exactly on
a non-null non-array object whose section values are non-null non-array
objects whose entries are strings, numbers, booleans, `undefined`, or
all-string arrays; anything else is rejected with an error. -/
theorem C10_fromObject_iff :
    ∀ v : JSVal, (fromObject v = .ok v ↔ ValidData v) ∧
      (∀ d, fromObject v = .ok d → d = v) := by
  intro v
  cases v with
  | vobj o =>
    constructor
    · cases hc : checkSections o with
      | ok u =>
        obtain ⟨⟩ := u
        refine ⟨fun _ => ⟨o, rfl, (checkSections_iff o).mp hc⟩, fun _ => ?_⟩
        simp [fromObject, hc]
      | error e =>
        simp only [fromObject, hc]
        constructor
        · intro h; exact absurd h (by simp)
        · intro h
          obtain ⟨o2, ho2, hall⟩ := h
          obtain rfl : o = o2 := by simpa using ho2
          rw [(checkSections_iff o).mpr hall] at hc
          cases hc
    · intro d hd
      cases hc : checkSections o with
      | ok u => simp only [fromObject, hc] at hd; simpa using hd.symm
      | error e => simp only [fromObject, hc] at hd; exact absurd hd (by simp)
  | vnull => exact ⟨by simp [fromObject, ValidData], by simp [fromObject]⟩
  | vundef => exact ⟨by simp [fromObject, ValidData], by simp [fromObject]⟩
  | vbool b => exact ⟨by simp [fromObject, ValidData], by simp [fromObject]⟩
  | vnum n k => exact ⟨by simp [fromObject, ValidData], by simp [fromObject]⟩
  | vstr s => exact ⟨by simp [fromObject, ValidData], by simp [fromObject]⟩
  | varr l => exact ⟨by simp [fromObject, ValidData], by simp [fromObject]⟩

theorem C10_witness :
    ValidData (.vobj [(("S").data, .vobj [(("K").data, .vstr (("x").data))])]) :=
  (C10_fromObject_iff (.vobj [(("S").data, .vobj [(("K").data,
    .vstr (("x").data))])])).1.mp rfl

/-! ### Line-continuation lemmas (C9) -/

/-- Two-step induction on lists, following the recursion pattern of
`remove2`. -/
theorem twoStepInd {motive : Str → Prop} (h0 : motive []) (h1 : ∀ c, motive [c])
    (h2 : ∀ a b t, motive t → motive (b :: t) → motive (a :: b :: t)) :
    ∀ s, motive s
  | [] => h0
  | [c] => h1 c
  | a :: b :: t => h2 a b t (twoStepInd h0 h1 h2 t) (twoStepInd h0 h1 h2 (b :: t))

theorem lastIs_cons_of_ne_nil (x : Char) (t : Str) (c : Char) (h : t ≠ []) :
    lastIs (x :: t) c = lastIs t c := by
  obtain ⟨y, ys, rfl⟩ := List.exists_cons_of_ne_nil h
  simp [lastIs, List.getLast?_cons_cons]

/-- Deleting an inserted backslash–newline pair commutes with the global
`replaceAll("\\\n", "")` pass, provided the text before the pair does
not itself end in a backslash. -/
theorem remove2_splice (s2 : Str) :
    ∀ s1 : Str, ¬ lastIs s1 '\\' = true →
      remove2 (s1 ++ '\\' :: '\n' :: s2) = remove2 (s1 ++ s2) := by
  refine twoStepInd ?_ ?_ ?_
  · intro _
    simp [remove2]
  · intro c hc
    have hne : ¬ c = '\\' := by simpa [lastIs] using hc
    cases s2 with
    | nil => simp [remove2, hne]
    | cons d t => simp [remove2, hne]
  · intro a b t iht ihbt h
    by_cases hab : a = '\\' ∧ b = '\n'
    · obtain ⟨rfl, rfl⟩ := hab
      have ht : ¬ lastIs t '\\' = true := by
        cases t with
        | nil => simp [lastIs]
        | cons y ys => rwa [lastIs_cons_of_ne_nil _ _ _ (by simp),
            lastIs_cons_of_ne_nil _ _ _ (by simp)] at h
      have e1 : remove2 ('\\' :: '\n' :: (t ++ '\\' :: '\n' :: s2)) =
          remove2 (t ++ '\\' :: '\n' :: s2) := by simp [remove2]
      have e2 : remove2 ('\\' :: '\n' :: (t ++ s2)) = remove2 (t ++ s2) := by simp [remove2]
      simp only [List.cons_append]
      rw [e1, e2]
      exact iht ht
    · have hbt : ¬ lastIs (b :: t) '\\' = true := by
        rwa [lastIs_cons_of_ne_nil _ _ _ (by simp)] at h
      simp only [List.cons_append, remove2, if_neg hab]
      exact congrArg (a :: ·) (ihbt hbt)

theorem trimL_cons_of_not_ws (a : Char) (s : Str) (h : wsChar a = false) :
    trimL (a :: s) = a :: s := by
  simp [trimL, h]

theorem trimR_concat_of_not_ws (b : Char) (s : Str) (h : wsChar b = false) :
    trimR (s ++ [b]) = s ++ [b] := by
  simp [trimR, h]

theorem jsTrim_sandwich (a b : Char) (m : Str) (ha : wsChar a = false)
    (hb : wsChar b = false) : jsTrim (a :: (m ++ [b])) = a :: (m ++ [b]) := by
  unfold jsTrim
  rw [trimL_cons_of_not_ws _ _ ha]
  have h2 := trimR_concat_of_not_ws b (a :: m) hb
  simpa using h2

/-- `fromString` on non-empty input, with the preprocessing spelled out. -/
theorem fromString_raw (data : Str) (h : data ≠ []) :
    fromString data =
      runLines (cleanLines (remove3 (remove2 (jsTrim data)))) [] none
        (remove3 (remove2 (jsTrim data))) := by
  simp [fromString, h]

/-- C9: a backslash immediately followed by a newline is deleted before
line splitting, joining the two physical lines with no inserted
separator: parsing text with the pair inserted equals parsing the text
with the two fragments contiguous (provided the junction is interior —
non-whitespace first/last characters — and the left fragment does not
itself end in a backslash); concretely `Key=a \` + LF + `  b` (and the
CR-LF form) parse to the single value `a   b` with the inter-fragment
whitespace preserved. -/
theorem C9_continuation :
    (∀ (a : Char) (s1 s2 : Str) (b : Char),
      wsChar a = false → wsChar b = false → ¬ lastIs (a :: s1) '\\' = true →
      fromString ((a :: s1) ++ '\\' :: '\n' :: (s2 ++ [b])) =
        fromString ((a :: s1) ++ (s2 ++ [b]))) ∧
    fromString (("[S]\nKey=a \\\n  b").data) =
      .ok [(("S").data, [(("Key").data, V.str (("a   b").data))])] ∧
    fromString (("[S]\nKey=a \\\r\n  b").data) =
      .ok [(("S").data, [(("Key").data, V.str (("a   b").data))])] := by
  refine ⟨?_, by decide, by decide⟩
  intro a s1 s2 b ha hb hbs
  rw [fromString_raw _ (by simp), fromString_raw _ (by simp)]
  suffices hr : remove3 (remove2 (jsTrim ((a :: s1) ++ '\\' :: '\n' :: (s2 ++ [b])))) =
      remove3 (remove2 (jsTrim ((a :: s1) ++ (s2 ++ [b])))) by rw [hr]
  have sh1 : (a :: s1) ++ '\\' :: '\n' :: (s2 ++ [b]) =
      a :: ((s1 ++ '\\' :: '\n' :: s2) ++ [b]) := by simp
  have sh2 : (a :: s1) ++ (s2 ++ [b]) = a :: ((s1 ++ s2) ++ [b]) := by simp
  rw [sh1, jsTrim_sandwich a b _ ha hb, ← sh1,
      sh2, jsTrim_sandwich a b _ ha hb, ← sh2,
      remove2_splice (s2 ++ [b]) (a :: s1) hbs]

theorem C9_witness :
    fromString ('[' :: (("S]\nKey=a ").data) ++ '\\' :: '\n' :: ((" ").data ++ ['b'])) =
      fromString ('[' :: (("S]\nKey=a ").data) ++ ((" ").data ++ ['b'])) :=
  C9_continuation.1 '[' (("S]\nKey=a ").data) ((" ").data) 'b'
    (by decide) (by decide) (by decide)

/-! ### Trim structure lemmas -/

theorem trimL_all_ws (s : Str) (h : ∀ c ∈ s, wsChar c = true) : trimL s = [] := by
  simp [trimL, List.dropWhile_eq_nil_iff]
  exact fun c hc => h c hc

theorem jsTrim_nil : jsTrim [] = [] := rfl

/-- Every string is its right-trim followed by a whitespace tail. -/
theorem trimR_spec (s : Str) :
    s = trimR s ++ (s.reverse.takeWhile wsChar).reverse ∧
      (∀ c ∈ (s.reverse.takeWhile wsChar).reverse, wsChar c = true) := by
  constructor
  · have h := List.takeWhile_append_dropWhile (p := wsChar) (l := s.reverse)
    have h2 := congrArg List.reverse h
    simp only [List.reverse_append, List.reverse_reverse] at h2
    exact h2.symm
  · intro c hc
    rw [List.mem_reverse] at hc
    exact List.mem_takeWhile_imp hc

/-- The right trim is a prefix of the original. -/
theorem trimR_prefix (s : Str) : ∃ w, s = trimR s ++ w ∧ ∀ c ∈ w, wsChar c = true :=
  ⟨(s.reverse.takeWhile wsChar).reverse, (trimR_spec s).1, (trimR_spec s).2⟩

/-- Every string is a whitespace head followed by its left-trim. -/
theorem trimL_spec (s : Str) :
    ∃ w, s = w ++ trimL s ∧ ∀ c ∈ w, wsChar c = true := by
  refine ⟨s.takeWhile wsChar, ?_, ?_⟩
  · exact (List.takeWhile_append_dropWhile (p := wsChar) (l := s)).symm
  · exact fun c hc => List.mem_takeWhile_imp hc

theorem mem_trimL (s : Str) (c : Char) (h : c ∈ trimL s) : c ∈ s :=
  List.dropWhile_sublist wsChar |>.mem h

theorem mem_trimR (s : Str) (c : Char) (h : c ∈ trimR s) : c ∈ s := by
  rw [trimR, List.mem_reverse] at h
  have := (List.dropWhile_sublist wsChar (l := s.reverse)).mem h
  simpa using this

theorem mem_jsTrim (s : Str) (c : Char) (h : c ∈ jsTrim s) : c ∈ s :=
  mem_trimL s c (mem_trimR (trimL s) c h)

theorem dropWhile_head_not (p : Char → Bool) (x : Str) (c : Char)
    (h : (x.dropWhile p).head? = some c) : p c = false := by
  induction x with
  | nil => simp at h
  | cons a t ih =>
    by_cases ha : p a
    · rw [List.dropWhile_cons_of_pos (by simpa using ha)] at h
      exact ih h
    · rw [List.dropWhile_cons_of_neg (by simpa using ha)] at h
      obtain rfl : a = c := by simpa using h
      simpa using ha

/-- The head of a left-trim result is not whitespace. -/
theorem trimL_head_not_ws (s : Str) (c : Char) (h : (trimL s).head? = some c) :
    wsChar c = false :=
  dropWhile_head_not wsChar s c h

theorem trimR_last_not_ws (s : Str) (c : Char) (h : (trimR s).getLast? = some c) :
    wsChar c = false := by
  unfold trimR at h
  rw [List.getLast?_reverse] at h
  exact dropWhile_head_not wsChar s.reverse c h

theorem trimR_fix_of_last (s : Str) (b : Char) (hb : s.getLast? = some b)
    (hw : wsChar b = false) : trimR s = s := by
  have hne : s ≠ [] := by intro h; rw [h] at hb; simp at hb
  have hdec : s.dropLast ++ [s.getLast hne] = s := List.dropLast_append_getLast hne
  have hlast : s.getLast hne = b := by
    have := List.getLast?_eq_getLast s hne
    rw [this] at hb
    exact (Option.some.injEq _ _).mp hb
  calc trimR s = trimR (s.dropLast ++ [s.getLast hne]) := by rw [hdec]
    _ = s.dropLast ++ [s.getLast hne] := by rw [hlast]; exact trimR_concat_of_not_ws _ _ hw
    _ = s := hdec

theorem jsTrim_eq_self (s : Str) (h1 : ∀ c, s.head? = some c → wsChar c = false)
    (h2 : ∀ c, s.getLast? = some c → wsChar c = false) : jsTrim s = s := by
  cases s with
  | nil => rfl
  | cons a m =>
    have ha : wsChar a = false := h1 a rfl
    unfold jsTrim
    rw [trimL_cons_of_not_ws a m ha]
    cases hl : (a :: m).getLast? with
    | none => simp at hl
    | some b => exact trimR_fix_of_last _ b hl (h2 b hl)

theorem head?_append_left {α : Type} (p w : List α) (h : p ≠ []) :
    (p ++ w).head? = p.head? := by
  cases p with
  | nil => exact absurd rfl h
  | cons a t => rfl

theorem jsTrim_idem (s : Str) : jsTrim (jsTrim s) = jsTrim s := by
  by_cases h : jsTrim s = []
  · rw [h]; rfl
  · refine jsTrim_eq_self _ ?_ ?_
    · intro c hc
      have h2 : trimR (trimL s) ≠ [] := by unfold jsTrim at h; exact h
      obtain ⟨w, hspec, _⟩ := trimR_prefix (trimL s)
      refine trimL_head_not_ws s c ?_
      rw [hspec, head?_append_left _ _ h2]
      unfold jsTrim at hc
      exact hc
    · intro c hc
      exact trimR_last_not_ws (trimL s) c hc

theorem trimL_fix_head (c : Char) (t : Str) (h : trimL (c :: t) = c :: t) :
    wsChar c = false := by
  by_cases hc : wsChar c
  · exfalso
    unfold trimL at h
    rw [List.dropWhile_cons_of_pos (by simpa using hc)] at h
    have hlen := congrArg List.length h
    have hle := (List.dropWhile_sublist (l := t) wsChar).length_le
    simp at hlen
    omega
  · simpa using hc

theorem jsTrim_fix_trimL (s : Str) (h : jsTrim s = s) : trimL s = s := by
  have h2 : s.length ≤ (trimL s).length := by
    conv_lhs => rw [← h]
    unfold jsTrim trimR
    have h3 := (List.dropWhile_sublist (l := (trimL s).reverse) wsChar).length_le
    simp only [List.length_reverse]
    simpa using h3
  obtain ⟨w, hw, _⟩ := trimL_spec s
  have hwnil : w = [] := by
    have hlen := congrArg List.length hw
    simp only [List.length_append] at hlen
    have : w.length = 0 := by omega
    exact List.eq_nil_of_length_eq_zero this
  rw [hwnil] at hw
  simpa using hw.symm

theorem jsTrim_fix_trimR (s : Str) (h : jsTrim s = s) : trimR s = s := by
  have := jsTrim_fix_trimL s h
  unfold jsTrim at h
  rwa [this] at h

/-- A non-empty trim-fixed string starts with a non-whitespace character. -/
theorem fix_head_not_ws (s : Str) (h : jsTrim s = s) (c : Char)
    (hc : s.head? = some c) : wsChar c = false := by
  have hL := jsTrim_fix_trimL s h
  cases s with
  | nil => simp at hc
  | cons a t =>
    have hac : a = c := by simpa using hc
    subst hac
    exact trimL_fix_head a t hL

/-- A non-empty trim-fixed string ends with a non-whitespace character. -/
theorem fix_last_not_ws (s : Str) (h : jsTrim s = s) (c : Char)
    (hc : s.getLast? = some c) : wsChar c = false := by
  have hR := jsTrim_fix_trimR s h
  conv at hc => rw [← hR]
  exact trimR_last_not_ws s c hc

/-! ### splitNL structure lemmas -/

theorem splitNL_ne_nil (s : Str) : splitNL s ≠ [] := by
  cases s with
  | nil => simp [splitNL]
  | cons c t =>
    by_cases hc : c = '\n'
    · simp [splitNL, hc]
    · simp only [splitNL, hc, if_false]
      cases splitNL t <;> simp

theorem mem_splitNL_no_nl (s : Str) : ∀ l ∈ splitNL s, '\n' ∉ l := by
  induction s with
  | nil => intro l hl; simp [splitNL] at hl; simp [hl]
  | cons c t ih =>
    intro l hl
    by_cases hc : c = '\n'
    · rw [splitNL, if_pos hc] at hl
      rcases List.mem_cons.mp hl with rfl | h2
      · simp
      · exact ih l h2
    · rw [splitNL, if_neg hc] at hl
      cases hs : splitNL t with
      | nil => exact absurd hs (splitNL_ne_nil t)
      | cons l0 ls =>
        rw [hs] at hl
        rcases List.mem_cons.mp hl with rfl | h2
        · intro hmem
          rcases List.mem_cons.mp hmem with h3 | h4
          · exact hc h3.symm
          · exact ih l0 (hs ▸ List.mem_cons_self l0 ls) h4
        · exact ih l (hs ▸ List.mem_cons_of_mem l0 h2)

theorem splitNL_append (l r : Str) (h : '\n' ∉ l) :
    splitNL (l ++ '\n' :: r) = l :: splitNL r := by
  induction l with
  | nil => simp [splitNL]
  | cons c t ih =>
    have hc : ¬ c = '\n' := fun hh => h (hh ▸ List.mem_cons_self c t)
    have ht : '\n' ∉ t := fun hh => h (List.mem_cons_of_mem c hh)
    rw [List.cons_append, splitNL, if_neg hc, ih ht]

theorem splitNL_no_nl (s : Str) (h : '\n' ∉ s) : splitNL s = [s] := by
  induction s with
  | nil => rfl
  | cons c t ih =>
    have hc : ¬ c = '\n' := fun hh => h (hh ▸ List.mem_cons_self c t)
    have ht : '\n' ∉ t := fun hh => h (List.mem_cons_of_mem c hh)
    rw [splitNL, if_neg hc, ih ht]

/-- Splitting a newline-terminated line block followed by a trailing
line without newline. -/
theorem splitNL_flatten (t : Str) (ht : '\n' ∉ t) :
    ∀ ls : List Str, (∀ l ∈ ls, '\n' ∉ l) →
      splitNL (((ls.map (· ++ ['\n'])).flatten) ++ t) = ls ++ [t] := by
  intro ls
  induction ls with
  | nil => intro _; simpa using splitNL_no_nl t ht
  | cons l ls' ih =>
    intro hall
    have hshape : ((((l :: ls').map (· ++ ['\n'])).flatten) ++ t) =
        l ++ '\n' :: ((((ls'.map (· ++ ['\n'])).flatten)) ++ t) := by
      simp
    rw [hshape, splitNL_append _ _ (hall l (List.mem_cons_self l ls')),
      ih (fun x hx => hall x (List.mem_cons_of_mem l hx))]
    rfl

/-! ### The serialized text as a list of lines -/

/-- The line pushed for one key/value occurrence, without the trailing
newline. -/
def bareLines (k : Str) : V → List Str
  | .list l => l.map (fun v => k ++ '=' :: v)
  | .bool true => [k ++ '=' :: ("yes").data]
  | .bool false => [k ++ '=' :: ("no").data]
  | .str s => [k ++ '=' :: s]
  | .num n kk => [k ++ '=' :: numToStr n kk]

/-- The content lines of one section: header, then key lines. -/
def secLines (p : Str × Sec) : List Str :=
  ('[' :: (p.1 ++ [']'])) :: p.2.flatMap (fun q => bareLines q.1 q.2)

/-- The content lines of a document in output order. -/
def docLines (d : Doc) : List Str := d.flatMap secLines

/-- All physical lines of the (untrimmed) serialized text: content lines
plus the blank separator line after each section. -/
def bodyLines (d : Doc) : List Str := d.flatMap (fun p => secLines p ++ [[]])

theorem renderVal_eq (k : Str) (v : V) :
    renderVal k v = (bareLines k v).map (· ++ ['\n']) := by
  cases v with
  | str s => simp [renderVal, bareLines]
  | bool b => cases b <;> simp [renderVal, bareLines]
  | num n kk => simp [renderVal, bareLines]
  | list l => simp [renderVal, bareLines]

theorem kv_flatten (sec : Sec) :
    ((sec.flatMap (fun q => bareLines q.1 q.2)).map (· ++ ['\n'])).flatten =
      (sec.map (fun p => (renderVal p.1 p.2).flatten)).flatten := by
  induction sec with
  | nil => rfl
  | cons p t ih =>
    simp only [List.flatMap_cons, List.map_cons, List.map_append, List.flatten_append,
      List.flatten_cons]
    rw [ih, renderVal_eq]

theorem sectionPiece_eq (n : Str) (sec : Sec) :
    sectionPiece n sec = (((secLines (n, sec) ++ [[]]).map (· ++ ['\n'])).flatten) := by
  unfold sectionPiece secLines
  simp only [List.map_append, List.map_cons, List.flatten_append, List.flatten_cons,
    List.map_nil, List.flatten_nil, List.nil_append, List.append_nil]
  rw [← kv_flatten]
  simp

theorem bodyText_eq (d : Doc) :
    (d.map (fun p => sectionPiece p.1 p.2)).flatten =
      ((bodyLines d).map (· ++ ['\n'])).flatten := by
  induction d with
  | nil => rfl
  | cons p t ih =>
    simp only [List.map_cons, List.flatten_cons, bodyLines, List.flatMap_cons,
      List.map_append, List.flatten_append]
    rw [← bodyLines, ← ih, sectionPiece_eq]
    simp

/-! ### Character classes of rendered numbers -/

/-- Characters that can appear in a rendered number. -/
def numCharP (c : Char) : Prop := c = '-' ∨ c = '.' ∨ isDigit c = true

instance : DecidablePred numCharP := fun c => by unfold numCharP; infer_instance

theorem isDigit_toNat (c : Char) (h : isDigit c = true) :
    48 ≤ c.toNat ∧ c.toNat ≤ 57 := by
  unfold isDigit at h
  simp only [decide_eq_true_eq] at h
  exact ⟨h.1, h.2⟩

theorem numCharP_toNat (c : Char) (h : numCharP c) :
    c.toNat = 45 ∨ c.toNat = 46 ∨ (48 ≤ c.toNat ∧ c.toNat ≤ 57) := by
  rcases h with rfl | rfl | h
  · left; rfl
  · right; left; rfl
  · right; right; exact isDigit_toNat c h

theorem numCharP_not_ws (c : Char) (h : numCharP c) : wsChar c = false := by
  have := numCharP_toNat c h
  unfold wsChar
  simp only [decide_eq_false_iff_not]
  omega

theorem ne_of_toNat_ne (c d : Char) (h : c.toNat ≠ d.toNat) : c ≠ d :=
  fun hh => h (hh ▸ rfl)

theorem numCharP_ne_nl (c : Char) (h : numCharP c) : c ≠ '\n' := by
  refine ne_of_toNat_ne c '\n' ?_
  have h1 := numCharP_toNat c h
  have h2 : ('\n').toNat = 10 := rfl
  omega

theorem numCharP_ne_bs (c : Char) (h : numCharP c) : c ≠ '\\' := by
  refine ne_of_toNat_ne c '\\' ?_
  have h1 := numCharP_toNat c h
  have h2 : ('\\').toNat = 92 := rfl
  omega

theorem numCharP_ne_rb (c : Char) (h : numCharP c) : c ≠ ']' := by
  refine ne_of_toNat_ne c ']' ?_
  have h1 := numCharP_toNat c h
  have h2 : (']').toNat = 93 := rfl
  omega

theorem natDigitsAux_digits (fuel : Nat) :
    ∀ n, ∀ c ∈ natDigitsAux fuel n, isDigit c = true := by
  induction fuel with
  | zero => intro n c hc; simp [natDigitsAux] at hc
  | succ f ih =>
    intro n c hc
    unfold natDigitsAux at hc
    by_cases hn : n = 0
    · simp [hn] at hc
    · rw [if_neg hn] at hc
      rcases List.mem_append.mp hc with h1 | h2
      · exact ih (n / 10) c h1
      · have hm : n % 10 < 10 := Nat.mod_lt _ (by norm_num)
        have hceq : c = Char.ofNat (48 + n % 10) := by simpa using h2
        subst hceq
        set m := n % 10 with hm2
        interval_cases m <;> decide

theorem natToDigits_digits (n : Nat) : ∀ c ∈ natToDigits n, isDigit c = true := by
  unfold natToDigits
  by_cases hn : n = 0
  · intro c hc
    rw [if_pos hn] at hc
    have hc0 : c = '0' := by simpa using hc
    subst hc0; decide
  · rw [if_neg hn]
    exact natDigitsAux_digits (n + 1) n

theorem natToDigits_ne_nil (n : Nat) : natToDigits n ≠ [] := by
  unfold natToDigits
  by_cases hn : n = 0
  · simp [hn]
  · rw [if_neg hn]
    unfold natDigitsAux
    rw [if_neg hn]
    simp

theorem numToStr_chars (n : Int) (k : Nat) : ∀ c ∈ numToStr n k, numCharP c := by
  intro c hc
  unfold numToStr at hc
  by_cases hk : k = 0
  · rw [if_pos hk] at hc
    rcases List.mem_append.mp hc with h1 | h2
    · by_cases hn : n < 0
      · simp [hn] at h1; simp [numCharP, h1]
      · simp [hn] at h1
    · exact Or.inr (Or.inr (natToDigits_digits _ c h2))
  · rw [if_neg hk] at hc
    have hpad : ∀ x ∈ (if (natToDigits n.natAbs).length ≤ k then
        List.replicate (k + 1 - (natToDigits n.natAbs).length) '0' ++ natToDigits n.natAbs
        else natToDigits n.natAbs), isDigit x = true := by
      intro x hx
      by_cases hle : (natToDigits n.natAbs).length ≤ k
      · rw [if_pos hle] at hx
        rcases List.mem_append.mp hx with hr | hm
        · have := List.eq_of_mem_replicate hr
          subst this; decide
        · exact natToDigits_digits _ x hm
      · rw [if_neg hle] at hx
        exact natToDigits_digits _ x hx
    rcases List.mem_append.mp hc with h1 | h2
    · rcases List.mem_append.mp h1 with h3 | h4
      · rcases List.mem_append.mp h3 with h5 | h6
        · by_cases hn : n < 0
          · simp [hn] at h5; simp [numCharP, h5]
          · simp [hn] at h5
        · exact Or.inr (Or.inr (hpad c (List.mem_of_mem_take h6)))
      · simp at h4; simp [numCharP, h4]
    · exact Or.inr (Or.inr (hpad c (List.mem_of_mem_drop h2)))

theorem numToStr_ne_nil (n : Int) (k : Nat) : numToStr n k ≠ [] := by
  unfold numToStr
  by_cases hk : k = 0
  · rw [if_pos hk]
    simp [natToDigits_ne_nil]
  · rw [if_neg hk]
    simp

/-! ### Classification lemmas for `readValue` and `jsNumber` -/

theorem canon_spec (k : Nat) : ∀ n : Int, (canon n k).2 = 0 ∨ ¬ (canon n k).1 % 10 = 0 := by
  induction k with
  | zero => intro n; left; rfl
  | succ j ih =>
    intro n
    unfold canon
    by_cases h : n % 10 = 0
    · rw [if_pos h]; exact ih (n / 10)
    · rw [if_neg h]; right; exact h

theorem mkFin_canon (neg : Bool) (m : Nat) (e : Int) (n : Int) (k : Nat)
    (h : mkFin neg m e = .fin n k) : k = 0 ∨ ¬ n % 10 = 0 := by
  unfold mkFin at h
  by_cases he : 0 ≤ e
  · rw [if_pos he] at h
    injection h with h1 h2
    left; exact h2.symm
  · rw [if_neg he] at h
    injection h with h1 h2
    have := canon_spec (-e).toNat (if neg then -(m : Int) else (m : Int))
    rw [h1, h2] at this
    exact this

theorem parseDecU_canon (neg : Bool) (u : Str) (n : Int) (k : Nat)
    (h : parseDecU neg u = .fin n k) : k = 0 ∨ ¬ n % 10 = 0 := by
  unfold parseDecU at h
  by_cases hinf : u = ("Infinity").data
  · rw [if_pos hinf] at h; cases h
  · rw [if_neg hinf] at h
    simp only at h
    split at h
    · by_cases hip : u.takeWhile isDigit = [] ∧
          (by rename_i r2 heq; exact r2 : Str).takeWhile isDigit = []
      · exact absurd h (by rw [if_pos hip]; simp)
      · rw [if_neg hip] at h
        split at h
        · exact mkFin_canon _ _ _ _ _ h
        · cases h
    · by_cases hip : u.takeWhile isDigit = []
      · exact absurd h (by rw [if_pos hip]; simp)
      · rw [if_neg hip] at h
        split at h
        · exact mkFin_canon _ _ _ _ _ h
        · cases h

theorem parseDec_canon (t : Str) (n : Int) (k : Nat)
    (h : parseDec t = .fin n k) : k = 0 ∨ ¬ n % 10 = 0 := by
  unfold parseDec at h
  split at h
  · exact parseDecU_canon _ _ _ _ h
  · exact parseDecU_canon _ _ _ _ h
  · exact parseDecU_canon _ _ _ _ h

theorem jsNumber_canon (s : Str) (n : Int) (k : Nat)
    (h : jsNumber s = .fin n k) : k = 0 ∨ ¬ n % 10 = 0 := by
  unfold jsNumber at h
  simp only [] at h
  split at h
  · injection h with h1 h2; left; exact h2.symm
  · rename_i c rest heq
    split_ifs at h <;> first
      | (injection h with h1 h2; left; exact h2.symm)
      | cases h
      | exact parseDec_canon _ _ _ h
  · exact parseDec_canon _ _ _ h

theorem readValue_num_canon (s : Str) (n : Int) (kk : Nat)
    (h : readValue s = .num n kk) :
    (kk = 0 ∨ ¬ n % 10 = 0) ∧ finOk n kk = true := by
  unfold readValue at h
  simp only [] at h
  split_ifs at h
  cases hj : jsNumber (jsTrim s) with
  | nan => rw [hj] at h; cases h
  | inf => rw [hj] at h; cases h
  | fin n2 k2 =>
    rw [hj] at h
    simp only at h
    by_cases hf : finOk n2 k2
    · rw [if_pos hf] at h
      injection h with h1 h2
      subst h1; subst h2
      exact ⟨jsNumber_canon _ _ _ hj, hf⟩
    · rw [if_neg hf] at h; cases h

theorem readValue_str_arg (s t : Str) (h : readValue s = .str t) : t = jsTrim s := by
  unfold readValue at h
  simp only [] at h
  split_ifs at h
  cases hj : jsNumber (jsTrim s) with
  | nan => rw [hj] at h; injection h with h1; exact h1.symm
  | inf => rw [hj] at h; injection h with h1; exact h1.symm
  | fin n2 k2 =>
    rw [hj] at h
    simp only at h
    by_cases hf : finOk n2 k2
    · rw [if_pos hf] at h; cases h
    · rw [if_neg hf] at h; injection h with h1; exact h1.symm

theorem readValue_str_fix (s : Str) (h : readValue s = .str s) :
    jsTrim s = s ∧ s ≠ [] := by
  have harg := readValue_str_arg s s h
  refine ⟨harg.symm, ?_⟩
  intro hnil
  rw [hnil] at h
  exact absurd h (by decide)

/-- `readValue` only looks at the trimmed token. -/
theorem readValue_jsTrim (s : Str) : readValue (jsTrim s) = readValue s := by
  unfold readValue
  rw [jsTrim_idem]

/-! ### Well-formedness of parsed documents -/

/-- Enumeration-order relation between two distinct keys. -/
def pairOK (k k' : Str) : Prop := keyLe k k' = true ∧ k ≠ k'

/-- A string value as stored by the parser, under key `k`. -/
def strValOK (k s : Str) : Prop :=
  readValue s = .str s ∧ '\n' ∉ s ∧
    ¬(headIs k '[' = true ∧ lastIs s ']' = true)

def valOK (k : Str) : V → Prop
  | .str s => strValOK k s
  | .list l => 2 ≤ l.length ∧ ∀ s ∈ l, strValOK k s
  | .bool _ => True
  | .num n kk => (kk = 0 ∨ ¬ n % 10 = 0) ∧ finOk n kk = true

def keyOK (k : Str) : Prop :=
  k ≠ [] ∧ jsTrim k = k ∧ '\n' ∉ k ∧ '=' ∉ k ∧
    ¬ headIs k '#' = true ∧ ¬ headIs k ';' = true

def secOK (sec : Sec) : Prop :=
  List.Pairwise pairOK (sec.map Prod.fst) ∧ ∀ p ∈ sec, keyOK p.1 ∧ valOK p.1 p.2

def docOK (d : Doc) : Prop :=
  List.Pairwise pairOK (d.map Prod.fst) ∧
    ∀ p ∈ d, '\n' ∉ p.1 ∧ (p.1 = [] → p.2 = []) ∧ secOK p.2

/-! ### Absence of continuation patterns in serialized text -/

/-- No adjacent occurrence of the two characters `a`, `b`. -/
def noPair (a b : Char) : Str → Prop
  | [] => True
  | [_] => True
  | c :: d :: t => ¬(c = a ∧ d = b) ∧ noPair a b (d :: t)

theorem remove2_of_noPair : ∀ s : Str, noPair '\\' '\n' s → remove2 s = s := by
  refine twoStepInd ?_ ?_ ?_
  · intro _; rfl
  · intro c _; rfl
  · intro a b t _ ihbt h
    obtain ⟨h1, h2⟩ := h
    rw [remove2, if_neg h1]
    exact congrArg (a :: ·) (ihbt h2)

/-- Three-step induction on lists, following the recursion pattern of
`remove3`. -/
theorem threeStepInd {motive : Str → Prop} (h0 : motive []) (h1 : ∀ c, motive [c])
    (h2 : ∀ c d, motive [c, d])
    (h3 : ∀ a b c t, motive t → motive (b :: c :: t) → motive (a :: b :: c :: t)) :
    ∀ s, motive s
  | [] => h0
  | [c] => h1 c
  | [c, d] => h2 c d
  | a :: b :: c :: t =>
    h3 a b c t (threeStepInd h0 h1 h2 h3 t) (threeStepInd h0 h1 h2 h3 (b :: c :: t))

theorem remove3_of_noPair : ∀ s : Str, noPair '\r' '\n' s → remove3 s = s := by
  refine threeStepInd ?_ ?_ ?_ ?_
  · intro _; rfl
  · intro c _; rfl
  · intro c d _; rfl
  · intro a b c t _ ihbct h
    have h2 : ¬(b = '\r' ∧ c = '\n') := h.2.1
    have hcond : ¬(a = '\\' ∧ b = '\r' ∧ c = '\n') := fun hh => h2 ⟨hh.2.1, hh.2.2⟩
    rw [remove3, if_neg hcond]
    exact congrArg (a :: ·) (ihbct h.2)

theorem noPair_of_not_mem (a b : Char) : ∀ s : Str, b ∉ s.tail → noPair a b s := by
  intro s
  induction s with
  | nil => intro _; trivial
  | cons c t ih =>
    intro h
    cases t with
    | nil => trivial
    | cons d t2 =>
      refine ⟨fun hh => ?_, ih ?_⟩
      · exact h (hh.2 ▸ List.mem_cons_self d t2)
      · intro hb
        exact h (List.mem_cons_of_mem d hb)

theorem noPair_nl_cons (a : Char) (ha : a ≠ '\n') (r : Str) (hr : noPair a '\n' r) :
    noPair a '\n' ('\n' :: r) := by
  cases r with
  | nil => trivial
  | cons e r2 => exact ⟨fun hh => ha hh.1.symm, hr⟩

theorem noPair_line (a : Char) (ha : a ≠ '\n') (r : Str) (hr : noPair a '\n' r) :
    ∀ l : Str, '\n' ∉ l → ¬ lastIs l a = true → noPair a '\n' (l ++ '\n' :: r) := by
  intro l
  induction l with
  | nil => intro _ _; exact noPair_nl_cons a ha r hr
  | cons c l2 ih =>
    intro hl hlast
    cases l2 with
    | nil =>
      have hc : ¬ c = a := by simpa [lastIs] using hlast
      exact ⟨fun hh => hc hh.1, noPair_nl_cons a ha r hr⟩
    | cons d l3 =>
      refine ⟨fun hh => hl (hh.2 ▸ List.mem_cons_of_mem c (List.mem_cons_self d l3)), ?_⟩
      have hl2 : '\n' ∉ d :: l3 := fun hm => hl (List.mem_cons_of_mem c hm)
      have hlast2 : ¬ lastIs (d :: l3) a = true := by
        rwa [lastIs_cons_of_ne_nil c (d :: l3) a (by simp)] at hlast
      exact ih hl2 hlast2

theorem noPair_lines (a : Char) (ha : a ≠ '\n') (t : Str) (ht : '\n' ∉ t) :
    ∀ ls : List Str, (∀ l ∈ ls, '\n' ∉ l ∧ ¬ lastIs l a = true) →
      noPair a '\n' (((ls.map (· ++ ['\n'])).flatten) ++ t) := by
  intro ls
  induction ls with
  | nil =>
    intro _
    refine noPair_of_not_mem a '\n' t ?_
    intro hm
    exact ht (List.tail_sublist t |>.mem hm)
  | cons l ls2 ih =>
    intro hall
    have hshape : (((l :: ls2).map (· ++ ['\n'])).flatten) ++ t =
        l ++ '\n' :: (((ls2.map (· ++ ['\n'])).flatten) ++ t) := by simp
    rw [hshape]
    exact noPair_line a ha _ (ih (fun x hx => hall x (List.mem_cons_of_mem l hx))) l
      (hall l (List.mem_cons_self l ls2)).1 (hall l (List.mem_cons_self l ls2)).2

/-! ### Right-trim over whitespace tails -/

theorem dropWhile_append_all (p : Char → Bool) (x y : Str)
    (hx : ∀ c ∈ x, p c = true) : (x ++ y).dropWhile p = y.dropWhile p := by
  induction x with
  | nil => rfl
  | cons c t ih =>
    rw [List.cons_append, List.dropWhile_cons_of_pos (hx c (List.mem_cons_self c t))]
    exact ih (fun e he => hx e (List.mem_cons_of_mem c he))

theorem trimR_append_ws (u w : Str) (hw : ∀ c ∈ w, wsChar c = true) :
    trimR (u ++ w) = trimR u := by
  unfold trimR
  rw [List.reverse_append, dropWhile_append_all wsChar w.reverse u.reverse
    (fun c hc => hw c (List.mem_reverse.mp hc))]

/-! ### From `toString` back to the document's lines -/

theorem mem_bodyLines (d : Doc) (l : Str) (h : l ∈ bodyLines d) :
    l = [] ∨ l ∈ docLines d := by
  induction d with
  | nil => simp [bodyLines] at h
  | cons p t ih =>
    unfold bodyLines at h
    rw [List.flatMap_cons] at h
    rcases List.mem_append.mp h with h1 | h2
    · rcases List.mem_append.mp h1 with h3 | h4
      · right
        unfold docLines
        rw [List.flatMap_cons]
        exact List.mem_append.mpr (Or.inl h3)
      · left; simpa using h4
    · rcases ih h2 with h5 | h6
      · left; exact h5
      · right
        unfold docLines
        rw [List.flatMap_cons]
        exact List.mem_append.mpr (Or.inr h6)

theorem bodyLines_filter (d : Doc) (h : ∀ l ∈ docLines d, l ≠ []) :
    (bodyLines d).filter (fun l => decide (l ≠ [])) = docLines d := by
  induction d with
  | nil => rfl
  | cons p t ih =>
    have hb : bodyLines (p :: t) = (secLines p ++ [[]]) ++ bodyLines t := by
      simp [bodyLines]
    have hdoc : docLines (p :: t) = secLines p ++ docLines t := by
      simp [docLines]
    rw [hb, hdoc, List.filter_append, List.filter_append]
    simp only [hdoc] at h
    have h1 : ∀ l ∈ docLines t, l ≠ [] := by
      intro l hl
      exact h l (List.mem_append.mpr (Or.inr hl))
    have h2 : (secLines p).filter (fun l => decide (l ≠ [])) = secLines p := by
      rw [List.filter_eq_self]
      intro l hl
      simp only [decide_eq_true_eq]
      exact h l (List.mem_append.mpr (Or.inl hl))
    rw [h2, ih h1]
    simp

theorem bodyLines_last_split (d : Doc) (hd : d ≠ []) :
    ∃ Y lastL, bodyLines d = Y ++ [lastL, []] ∧ lastL ∈ docLines d := by
  induction d with
  | nil => exact absurd rfl hd
  | cons p t ih =>
    cases t with
    | nil =>
      rcases List.eq_nil_or_concat (secLines p) with hnil | ⟨Z, w, hZ⟩
      · exact absurd hnil (by simp [secLines])
      · rw [List.concat_eq_append] at hZ
        refine ⟨Z, w, ?_, ?_⟩
        · unfold bodyLines
          rw [List.flatMap_cons]
          simp [hZ]
        · unfold docLines
          rw [List.flatMap_cons]
          refine List.mem_append.mpr (Or.inl ?_)
          rw [hZ]
          exact List.mem_append.mpr (Or.inr (List.mem_cons_self _ _))
    | cons q t2 =>
      obtain ⟨Y2, lastL, hsplit, hmem⟩ := ih (by simp)
      refine ⟨(secLines p ++ [[]]) ++ Y2, lastL, ?_, ?_⟩
      · unfold bodyLines
        rw [List.flatMap_cons, ← bodyLines, hsplit]
        simp
      · unfold docLines
        rw [List.flatMap_cons, ← docLines]
        exact List.mem_append.mpr (Or.inr hmem)

/-- Collapsing the map/filter pipeline of `cleanLines` over well-behaved
lines. -/
theorem cleanFilter (xs : List Str)
    (h : ∀ l ∈ xs, l = [] ∨
      (jsTrim l = l ∧ ¬ headIs l '#' = true ∧ ¬ headIs l ';' = true)) :
    ((((xs.map jsTrim).filter (fun l => decide (l.length > 0))).filter
        (fun l => ¬headIs l '#')).filter (fun l => ¬headIs l ';')) =
      xs.filter (fun l => decide (l ≠ [])) := by
  induction xs with
  | nil => rfl
  | cons l t ih =>
    have hl := h l (List.mem_cons_self l t)
    have iht := ih (fun x hx => h x (List.mem_cons_of_mem l hx))
    rcases hl with rfl | ⟨hfix, hh, hs⟩
    · simpa using iht
    · by_cases hnil : l = []
      · subst hnil
        simpa using iht
      · have hlen : l.length > 0 := List.length_pos.mpr hnil
        simp only [List.map_cons, hfix, List.filter_cons]
        rw [if_pos (by simpa using hlen)]
        simp only [List.filter_cons]
        rw [if_pos (by simpa using hh), List.filter_cons, if_pos (by simpa using hs),
          if_pos (by simpa using hnil)]
        rw [iht]

theorem cleanLines_def (raw : Str) :
    cleanLines raw = ((((splitNL raw).map jsTrim).filter
      (fun l => decide (l.length > 0))).filter
        (fun l => ¬headIs l '#')).filter (fun l => ¬headIs l ';') := rfl

/-- The serialized text of a non-empty document: the flattened
newline-terminated lines of `bodyLines` minus the final blank
separator and newline. -/
theorem toString_text (d : Doc) (hd : d ≠ [])
    (hall : ∀ l ∈ docLines d, '\n' ∉ l ∧ jsTrim l = l ∧ l ≠ []) :
    ∃ Y lastL, bodyLines d = Y ++ [lastL, []] ∧ lastL ∈ docLines d ∧
      Ini.toString d = ((Y.map (· ++ ['\n'])).flatten) ++ lastL := by
  obtain ⟨Y, lastL, hsplit, hmem⟩ := bodyLines_last_split d hd
  refine ⟨Y, lastL, hsplit, hmem, ?_⟩
  unfold toString
  rw [bodyText_eq, hsplit]
  have hA : (((Y ++ [lastL, []]).map (· ++ ['\n'])).flatten) =
      (((Y.map (· ++ ['\n'])).flatten) ++ lastL) ++ ['\n', '\n'] := by
    simp
  rw [hA]
  set C := ((Y.map (· ++ ['\n'])).flatten) ++ lastL with hC
  obtain ⟨p, t, rfl⟩ := List.exists_cons_of_ne_nil hd
  have hhdr : bodyLines (p :: t) = ('[' :: (p.1 ++ [']'])) ::
      (p.2.flatMap (fun q => bareLines q.1 q.2) ++ [[]] ++ bodyLines t) := by
    unfold bodyLines secLines
    rw [List.flatMap_cons]
    simp
  have hChead : ∃ C2, C = '[' :: C2 := by
    have h1 : Y ++ [lastL, []] = ('[' :: (p.1 ++ [']'])) ::
        (p.2.flatMap (fun q => bareLines q.1 q.2) ++ [[]] ++ bodyLines t) := by
      rw [← hsplit, hhdr]
    cases Y with
    | nil =>
      have : lastL = '[' :: (p.1 ++ [']']) := by
        have := congrArg (fun l => l.head?) h1
        simpa using this
      exact ⟨lastL.tail ++ [], by simp [hC, this]⟩
    | cons y0 Y2 =>
      have hy0 : y0 = '[' :: (p.1 ++ [']']) := by
        have := congrArg (fun l => l.head?) h1
        simpa using this
      refine ⟨(p.1 ++ [']']) ++ ['\n'] ++ ((Y2.map (· ++ ['\n'])).flatten) ++ lastL, ?_⟩
      simp [hC, hy0]
  obtain ⟨C2, hC2⟩ := hChead
  have hlastL := hall lastL hmem
  have hlast : trimR C = C := by
    obtain ⟨b, hb⟩ : ∃ b, lastL.getLast? = some b := by
      cases hl : lastL.getLast? with
      | none => exact absurd (List.getLast?_eq_none_iff.mp hl) hlastL.2.2
      | some b => exact ⟨b, rfl⟩
    have hbws : wsChar b = false := fix_last_not_ws lastL hlastL.2.1 b hb
    have hCb : C.getLast? = some b := by
      rw [hC, List.getLast?_append_of_ne_nil _ hlastL.2.2]
      exact hb
    exact trimR_fix_of_last C b hCb hbws
  calc jsTrim (C ++ ['\n', '\n'])
      = trimR (trimL (C ++ ['\n', '\n'])) := rfl
    _ = trimR (C ++ ['\n', '\n']) := by
        rw [hC2]
        rw [show ('[' :: C2) ++ ['\n', '\n'] = '[' :: (C2 ++ ['\n', '\n']) by simp]
        rw [trimL_cons_of_not_ws _ _ (by decide)]
    _ = trimR C := trimR_append_ws C ['\n', '\n'] (by decide)
    _ = C := hlast

/-- `cleanLines` of the serialized text recovers exactly the content
lines of the document. -/
theorem cleanLines_toString (d : Doc)
    (hall : ∀ l ∈ docLines d, '\n' ∉ l ∧ jsTrim l = l ∧ l ≠ [] ∧
      ¬ headIs l '#' = true ∧ ¬ headIs l ';' = true) :
    cleanLines (Ini.toString d) = docLines d := by
  cases hd : d with
  | nil => rfl
  | cons p t =>
    rw [← hd]
    have hd2 : d ≠ [] := by rw [hd]; simp
    obtain ⟨Y, lastL, hsplit, hmem, htext⟩ := toString_text d hd2
      (fun l hl => ⟨(hall l hl).1, (hall l hl).2.1, (hall l hl).2.2.1⟩)
    rw [htext, cleanLines_def]
    have hYmem : ∀ l ∈ Y, l ∈ bodyLines d := by
      intro l hl
      rw [hsplit]
      exact List.mem_append.mpr (Or.inl hl)
    have hYnl : ∀ l ∈ Y, '\n' ∉ l := by
      intro l hl
      rcases mem_bodyLines d l (hYmem l hl) with rfl | h2
      · simp
      · exact (hall l h2).1
    rw [splitNL_flatten lastL (hall lastL hmem).1 Y hYnl]
    have hprop : ∀ l ∈ Y ++ [lastL], l = [] ∨
        (jsTrim l = l ∧ ¬ headIs l '#' = true ∧ ¬ headIs l ';' = true) := by
      intro l hl
      rcases List.mem_append.mp hl with h1 | h2
      · rcases mem_bodyLines d l (hYmem l h1) with rfl | h3
        · left; rfl
        · right; exact ⟨(hall l h3).2.1, (hall l h3).2.2.2.1, (hall l h3).2.2.2.2⟩
      · obtain rfl : l = lastL := by simpa using h2
        right; exact ⟨(hall l hmem).2.1, (hall l hmem).2.2.2.1, (hall l hmem).2.2.2.2⟩
    rw [cleanFilter (Y ++ [lastL]) hprop]
    have hfeq : (Y ++ [lastL]).filter (fun l => decide (l ≠ [])) =
        (bodyLines d).filter (fun l => decide (l ≠ [])) := by
      have hln : lastL ≠ [] := (hall lastL hmem).2.2.1
      rw [hsplit, List.filter_append, List.filter_append]
      simp [hln]
    rw [hfeq, bodyLines_filter d (fun l hl => (hall l hl).2.2.1)]

/-! ### Enumeration order and insertion -/

theorem keyLe_trans (a b c : Str) (h1 : keyLe a b = true) (h2 : keyLe b c = true) :
    keyLe a c = true := by
  unfold keyLe at h1 h2 ⊢
  revert h1 h2
  cases arrIdx? a <;> cases arrIdx? b <;> cases arrIdx? c <;> intro h1 h2 <;>
    simp_all <;> omega

theorem keyLe_conn (a b : Str) (h : ¬ keyLe a b = true) : keyLe b a = true := by
  unfold keyLe at h ⊢
  revert h
  cases arrIdx? a <;> cases arrIdx? b <;> intro h <;> simp_all <;> omega

theorem alFind?_none_iff {β : Type} [Inhabited β] (l : List (Str × β)) (k : Str) :
    alFind? l k = none ↔ k ∉ l.map Prod.fst := by
  induction l with
  | nil => simp [alFind?]
  | cons p t ih =>
    obtain ⟨a, b⟩ := p
    by_cases ha : a = k
    · subst ha
      simp [alFind?]
    · rw [alFind?, if_neg ha, ih]
      simp only [List.map_cons, List.mem_cons]
      constructor
      · intro h hk
        rcases hk with h1 | h2
        · exact ha h1.symm
        · exact h h2
      · intro h h2
        exact h (Or.inr h2)

theorem alFind?_mem {β : Type} [Inhabited β] (l : List (Str × β)) (k : Str) (v : β)
    (h : alFind? l k = some v) : (k, v) ∈ l := by
  induction l with
  | nil => simp [alFind?] at h
  | cons p t ih =>
    obtain ⟨a, b⟩ := p
    by_cases ha : a = k
    · subst ha
      simp only [alFind?, if_pos rfl] at h
      obtain rfl : b = v := by simpa using h
      exact List.mem_cons_self _ _
    · rw [alFind?, if_neg ha] at h
      exact List.mem_cons_of_mem _ (ih h)

theorem mem_objInsert {β : Type} [Inhabited β] (l : List (Str × β)) (k : Str) (w : β) :
    ∀ q ∈ objInsert l k w, q ∈ l ∨ q = (k, w) := by
  induction l with
  | nil => intro q hq; right; simpa [objInsert] using hq
  | cons p t ih =>
    intro q hq
    unfold objInsert at hq
    by_cases hle : keyLe p.1 k
    · rw [if_pos hle] at hq
      rcases List.mem_cons.mp hq with h1 | h2
      · left; exact h1 ▸ List.mem_cons_self _ _
      · rcases ih q h2 with h3 | h4
        · left; exact List.mem_cons_of_mem _ h3
        · right; exact h4
    · rw [if_neg hle] at hq
      rcases List.mem_cons.mp hq with h1 | h2
      · right; exact h1
      · left; exact h2

theorem mem_setIn {β : Type} [Inhabited β] (l : List (Str × β)) (k : Str) (w : β) :
    ∀ q ∈ setIn l k w, q ∈ l ∨ q = (k, w) := by
  induction l with
  | nil => intro q hq; simp [setIn] at hq
  | cons p t ih =>
    intro q hq
    obtain ⟨a, b⟩ := p
    unfold setIn at hq
    by_cases ha : a = k
    · rw [if_pos ha] at hq
      rcases List.mem_cons.mp hq with h1 | h2
      · right; rw [h1, ha]
      · left; exact List.mem_cons_of_mem _ h2
    · rw [if_neg ha] at hq
      rcases List.mem_cons.mp hq with h1 | h2
      · left; exact h1 ▸ List.mem_cons_self _ _
      · rcases ih q h2 with h3 | h4
        · left; exact List.mem_cons_of_mem _ h3
        · right; exact h4

theorem mem_jsSet {β : Type} [Inhabited β] (l : List (Str × β)) (k : Str) (w : β) :
    ∀ q ∈ jsSet l k w, q ∈ l ∨ q = (k, w) := by
  intro q hq
  unfold jsSet at hq
  by_cases hf : (alFind? l k).isSome
  · rw [if_pos hf] at hq; exact mem_setIn l k w q hq
  · rw [if_neg hf] at hq; exact mem_objInsert l k w q hq

theorem mem_keys_objInsert {β : Type} [Inhabited β] (l : List (Str × β)) (k : Str) (w : β) :
    ∀ x ∈ (objInsert l k w).map Prod.fst, x = k ∨ x ∈ l.map Prod.fst := by
  intro x hx
  obtain ⟨q, hq, rfl⟩ := List.mem_map.mp hx
  rcases mem_objInsert l k w q hq with h1 | h2
  · right; exact List.mem_map.mpr ⟨q, h1, rfl⟩
  · left; rw [h2]

theorem pairwise_objInsert {β : Type} [Inhabited β] (k : Str) (w : β) :
    ∀ l : List (Str × β), alFind? l k = none →
      List.Pairwise pairOK (l.map Prod.fst) →
      List.Pairwise pairOK ((objInsert l k w).map Prod.fst) := by
  intro l
  induction l with
  | nil =>
    intro _ _
    exact List.Pairwise.cons (by simp) List.Pairwise.nil
  | cons p t ih =>
    intro hfresh hord
    have hpk : p.1 ≠ k := by
      intro hh
      rw [alFind?] at hfresh
      obtain ⟨a, b⟩ := p
      simp only at hh
      rw [if_pos hh] at hfresh
      cases hfresh
    have hfresh2 : alFind? t k = none := by
      obtain ⟨a, b⟩ := p
      rw [alFind?, if_neg (by simpa using hpk)] at hfresh
      exact hfresh
    simp only [List.map_cons, List.pairwise_cons] at hord
    obtain ⟨hp_all, hord_t⟩ := hord
    unfold objInsert
    by_cases hle : keyLe p.1 k
    · rw [if_pos hle]
      simp only [List.map_cons, List.pairwise_cons]
      refine ⟨?_, ih hfresh2 hord_t⟩
      intro x hx
      rcases mem_keys_objInsert t k w x hx with rfl | h2
      · exact ⟨hle, hpk⟩
      · exact hp_all x h2
    · rw [if_neg hle]
      simp only [List.map_cons, List.pairwise_cons]
      have hk_all : ∀ x ∈ p.1 :: t.map Prod.fst, pairOK k x := by
        intro x hx
        rcases List.mem_cons.mp hx with rfl | h2
        · refine ⟨keyLe_conn _ _ hle, fun hh => hpk hh.symm⟩
        · refine ⟨keyLe_trans k p.1 x (keyLe_conn _ _ hle) (hp_all x h2).1, ?_⟩
          intro hh
          rw [alFind?_none_iff] at hfresh2
          exact hfresh2 (hh ▸ h2)
      exact ⟨hk_all, by exact ⟨hp_all, hord_t⟩⟩

/-- Inserting a key that is `pairOK`-after every existing key appends. -/
theorem objInsert_prefix {β : Type} [Inhabited β] (k : Str) (w : β) :
    ∀ p : List (Str × β), (∀ x ∈ p.map Prod.fst, pairOK x k) →
      objInsert p k w = p ++ [(k, w)] := by
  intro p
  induction p with
  | nil => intro _; rfl
  | cons q t ih =>
    intro hall
    have hq := hall q.1 (by simp)
    unfold objInsert
    rw [if_pos hq.1]
    rw [ih (fun x hx => hall x (by simp only [List.map_cons, List.mem_cons]; right; exact hx))]
    simp

theorem alFind?_append_right {β : Type} [Inhabited β] (p q : List (Str × β)) (k : Str)
    (h : alFind? p k = none) : alFind? (p ++ q) k = alFind? q k := by
  induction p with
  | nil => rfl
  | cons x t ih =>
    obtain ⟨a, b⟩ := x
    by_cases ha : a = k
    · rw [alFind?, if_pos ha] at h; cases h
    · rw [alFind?, if_neg ha] at h
      rw [List.cons_append, alFind?, if_neg ha]
      exact ih h

theorem setIn_append {β : Type} [Inhabited β] (p r : List (Str × β)) (k : Str) (v w : β)
    (hp : alFind? p k = none) : setIn (p ++ (k, v) :: r) k w = p ++ (k, w) :: r := by
  induction p with
  | nil => simp [setIn]
  | cons x t ih =>
    obtain ⟨a, b⟩ := x
    by_cases ha : a = k
    · rw [alFind?, if_pos ha] at hp; cases hp
    · rw [alFind?, if_neg ha] at hp
      rw [List.cons_append, setIn, if_neg ha, ih hp, List.cons_append]

/-! ### The line loop with its state -/

/-- The loop of `fromString`, additionally returning the final "current
section" state (used only to reason about the loop). -/
def runState : List Str → Doc → Option Str → Str → Except PErr (Doc × Option Str)
  | [], doc, cur, _ => .ok (doc, cur)
  | l :: ls, doc, cur, raw =>
    match processLine doc cur l raw with
    | .ok (d, c) => runState ls d c raw
    | .error e => .error e

theorem runLines_eq_runState (ls : List Str) (doc : Doc) (cur : Option Str) (raw : Str) :
    runLines ls doc cur raw = (runState ls doc cur raw).map Prod.fst := by
  induction ls generalizing doc cur with
  | nil => rfl
  | cons l t ih =>
    rw [runLines, runState]
    cases processLine doc cur l raw with
    | ok p => exact ih p.1 p.2
    | error e => rfl

theorem runState_append (l1 l2 : List Str) (doc : Doc) (cur : Option Str) (raw : Str) :
    runState (l1 ++ l2) doc cur raw =
      match runState l1 doc cur raw with
      | .ok (d, c) => runState l2 d c raw
      | .error e => .error e := by
  induction l1 generalizing doc cur with
  | nil => rfl
  | cons l t ih =>
    rw [List.cons_append, runState, runState]
    cases processLine doc cur l raw with
    | ok p => exact ih p.1 p.2
    | error e => rfl

/-! ### Digits round-trip -/

theorem natOfDigits_foldl (b : Str) :
    ∀ A : Nat, b.foldl (fun a c => 10 * a + digitVal c) A =
      natOfDigits b + A * 10 ^ b.length := by
  induction b with
  | nil => intro A; simp [natOfDigits]
  | cons c t ih =>
    intro A
    simp only [List.foldl_cons]
    rw [ih (10 * A + digitVal c)]
    have h2 : natOfDigits (c :: t) = natOfDigits t + (digitVal c) * 10 ^ t.length := by
      unfold natOfDigits
      simp only [List.foldl_cons]
      have h3 := ih (10 * 0 + digitVal c)
      simpa using h3
    rw [h2]
    simp only [List.length_cons]
    ring

theorem natOfDigits_append (a b : Str) :
    natOfDigits (a ++ b) = (natOfDigits b) + (natOfDigits a) * 10 ^ b.length := by
  unfold natOfDigits
  rw [List.foldl_append]
  exact natOfDigits_foldl b _

theorem natOfDigits_replicate_zero (j : Nat) (ds : Str) :
    natOfDigits (List.replicate j '0' ++ ds) = natOfDigits ds := by
  rw [natOfDigits_append]
  have hz : natOfDigits (List.replicate j '0') = 0 := by
    induction j with
    | zero => rfl
    | succ m ih =>
      rw [List.replicate_succ]
      unfold natOfDigits at ih ⊢
      simp only [List.foldl_cons]
      have : digitVal '0' = 0 := by decide
      rw [this]
      simpa using ih
  rw [hz]
  simp

theorem digitVal_ofNat (m : Nat) (hm : m < 10) :
    digitVal (Char.ofNat (48 + m)) = m := by
  interval_cases m <;> decide

theorem natOfDigits_natDigitsAux :
    ∀ fuel n : Nat, n < fuel → natOfDigits (natDigitsAux fuel n) = n := by
  intro fuel
  induction fuel with
  | zero => intro n h; omega
  | succ f ih =>
    intro n h
    unfold natDigitsAux
    by_cases hn : n = 0
    · rw [if_pos hn, hn]; rfl
    · rw [if_neg hn, natOfDigits_append]
      have hdiv : n / 10 < f := by
        have h1 : n / 10 < n := Nat.div_lt_self (Nat.pos_of_ne_zero hn) (by norm_num)
        omega
      rw [ih (n / 10) hdiv]
      have : natOfDigits [Char.ofNat (48 + n % 10)] = n % 10 := by
        unfold natOfDigits
        simp only [List.foldl_cons, List.foldl_nil]
        rw [digitVal_ofNat (n % 10) (Nat.mod_lt _ (by norm_num))]
        omega
      rw [this]
      simp only [List.length_cons, List.length_nil, pow_one]
      omega

theorem natOfDigits_natToDigits (n : Nat) : natOfDigits (natToDigits n) = n := by
  unfold natToDigits
  by_cases hn : n = 0
  · rw [if_pos hn, hn]; rfl
  · rw [if_neg hn]
    exact natOfDigits_natDigitsAux (n + 1) n (by omega)

/-! ### takeWhile and dropWhile over digit blocks -/

theorem takeWhile_all (p : Char → Bool) (l : Str) (h : ∀ c ∈ l, p c = true) :
    l.takeWhile p = l := by
  induction l with
  | nil => rfl
  | cons c t ih =>
    rw [List.takeWhile_cons_of_pos (h c (List.mem_cons_self c t))]
    rw [ih (fun x hx => h x (List.mem_cons_of_mem c hx))]

theorem dropWhile_all (p : Char → Bool) (l : Str) (h : ∀ c ∈ l, p c = true) :
    l.dropWhile p = [] := by
  induction l with
  | nil => rfl
  | cons c t ih =>
    rw [List.dropWhile_cons_of_pos (h c (List.mem_cons_self c t))]
    exact ih (fun x hx => h x (List.mem_cons_of_mem c hx))

theorem takeWhile_append_stop (p : Char → Bool) (l : Str) (c : Char) (r : Str)
    (hl : ∀ x ∈ l, p x = true) (hc : p c = false) :
    (l ++ c :: r).takeWhile p = l := by
  induction l with
  | nil => simpa using List.takeWhile_cons_of_neg (p := p) (l := r) (by simp [hc])
  | cons a t ih =>
    rw [List.cons_append, List.takeWhile_cons_of_pos (hl a (List.mem_cons_self a t))]
    rw [ih (fun x hx => hl x (List.mem_cons_of_mem a hx))]

theorem dropWhile_append_stop (p : Char → Bool) (l : Str) (c : Char) (r : Str)
    (hl : ∀ x ∈ l, p x = true) (hc : p c = false) :
    (l ++ c :: r).dropWhile p = c :: r := by
  induction l with
  | nil => simpa using List.dropWhile_cons_of_neg (p := p) (l := r) (by simp [hc])
  | cons a t ih =>
    rw [List.cons_append, List.dropWhile_cons_of_pos (hl a (List.mem_cons_self a t))]
    exact ih (fun x hx => hl x (List.mem_cons_of_mem a hx))

/-! ### Reparsing a rendered number -/

theorem mem_of_head?_eq (l : Str) (c : Char) (h : l.head? = some c) : c ∈ l := by
  cases l with
  | nil => simp at h
  | cons a t =>
    have : a = c := by simpa using h
    rw [← this]
    exact List.mem_cons_self _ _

theorem mem_of_getLast?_eq (l : Str) (c : Char) (h : l.getLast? = some c) : c ∈ l := by
  have hx : c ∈ l.getLast? := by rw [h]; rfl
  obtain ⟨hne, heq⟩ := List.mem_getLast?_eq_getLast hx
  rw [heq]
  exact List.getLast_mem hne

theorem jsTrim_of_forall (s : Str) (h : ∀ c ∈ s, wsChar c = false) : jsTrim s = s :=
  jsTrim_eq_self s (fun c hc => h c (mem_of_head?_eq s c hc))
    (fun c hc => h c (mem_of_getLast?_eq s c hc))

theorem numToStr_trim (n : Int) (k : Nat) : jsTrim (numToStr n k) = numToStr n k :=
  jsTrim_of_forall _ (fun c hc => numCharP_not_ws c (numToStr_chars n k c hc))

/-- The unsigned body of a rendered number. -/
def numBody (a : Nat) (k : Nat) : Str :=
  let mag := natToDigits a
  if k = 0 then mag
  else
    let padded := if mag.length ≤ k then
      List.replicate (k + 1 - mag.length) '0' ++ mag else mag
    padded.take (padded.length - k) ++ ['.'] ++ padded.drop (padded.length - k)

theorem numToStr_decomp (n : Int) (k : Nat) :
    numToStr n k = (if n < 0 then ['-'] else []) ++ numBody n.natAbs k := by
  unfold numToStr numBody
  by_cases hk : k = 0
  · rw [if_pos hk, if_pos hk]
  · rw [if_neg hk, if_neg hk]
    simp

/-- The padded digit block of `numBody` for `k ≠ 0`. -/
def paddedOf (a k : Nat) : Str :=
  if (natToDigits a).length ≤ k then
    List.replicate (k + 1 - (natToDigits a).length) '0' ++ natToDigits a
  else natToDigits a

theorem paddedOf_digits (a k : Nat) : ∀ c ∈ paddedOf a k, isDigit c = true := by
  intro c hc
  unfold paddedOf at hc
  by_cases hle : (natToDigits a).length ≤ k
  · rw [if_pos hle] at hc
    rcases List.mem_append.mp hc with h1 | h2
    · have := List.eq_of_mem_replicate h1
      subst this; decide
    · exact natToDigits_digits a c h2
  · rw [if_neg hle] at hc
    exact natToDigits_digits a c hc

theorem paddedOf_val (a k : Nat) : natOfDigits (paddedOf a k) = a := by
  unfold paddedOf
  by_cases hle : (natToDigits a).length ≤ k
  · rw [if_pos hle, natOfDigits_replicate_zero, natOfDigits_natToDigits]
  · rw [if_neg hle, natOfDigits_natToDigits]

theorem paddedOf_len (a k : Nat) : k + 1 ≤ (paddedOf a k).length := by
  unfold paddedOf
  by_cases hle : (natToDigits a).length ≤ k
  · rw [if_pos hle]
    have h1 : (natToDigits a).length ≠ 0 := by
      intro hh
      exact natToDigits_ne_nil a (List.length_eq_zero.mp hh)
    simp only [List.length_append, List.length_replicate]
    omega
  · rw [if_neg hle]
    omega

theorem numBody_eq (a k : Nat) (hk : k ≠ 0) :
    numBody a k = (paddedOf a k).take ((paddedOf a k).length - k) ++
      '.' :: (paddedOf a k).drop ((paddedOf a k).length - k) := by
  unfold numBody paddedOf
  rw [if_neg hk]
  simp

theorem mkFin_e_zero (neg : Bool) (m : Nat) :
    mkFin neg m 0 = .fin (if neg then -(m : Int) else (m : Int)) 0 := by
  unfold mkFin
  rw [if_pos (le_refl (0 : Int))]
  simp

theorem parseDecU_numBody (neg : Bool) (a k : Nat)
    (hcanon : k = 0 ∨ ¬ (a % 10 = 0)) :
    parseDecU neg (numBody a k) = .fin (if neg then -(a : Int) else (a : Int)) k := by
  by_cases hk : k = 0
  · subst hk
    have hbody : numBody a 0 = natToDigits a := by unfold numBody; simp
    rw [hbody]
    unfold parseDecU
    rw [if_neg (fun he => by
      have : isDigit 'I' = true := natToDigits_digits a 'I' (he ▸ (by decide : 'I' ∈ ("Infinity").data))
      exact absurd this (by decide))]
    simp only []
    rw [takeWhile_all isDigit _ (natToDigits_digits a),
        dropWhile_all isDigit _ (natToDigits_digits a)]
    simp only []
    rw [if_neg (by simpa using natToDigits_ne_nil a)]
    show mkFin neg (natOfDigits (natToDigits a)) 0 = _
    rw [natOfDigits_natToDigits, mkFin_e_zero]
  · have han : ¬ a % 10 = 0 := by
      rcases hcanon with h | h
      · exact absurd h hk
      · exact h
    have hlen := paddedOf_len a k
    have hPdig := paddedOf_digits a k
    set P := paddedOf a k with hp
    set m := P.length - k with hm
    have hip_dig : ∀ c ∈ P.take m, isDigit c = true :=
      fun c hc => hPdig c (List.mem_of_mem_take hc)
    have hfp_dig : ∀ c ∈ P.drop m, isDigit c = true :=
      fun c hc => hPdig c (List.mem_of_mem_drop hc)
    have hip_ne : P.take m ≠ [] := by
      have : 1 ≤ m := by omega
      intro hh
      have := congrArg List.length hh
      simp only [List.length_take, List.length_nil] at this
      omega
    have hfp_len : (P.drop m).length = k := by
      simp only [List.length_drop]
      omega
    rw [numBody_eq a k hk, ← hp, ← hm]
    unfold parseDecU
    rw [if_neg (fun he => by
      have hIin : 'I' ∈ P.take m ++ '.' :: P.drop m :=
        he ▸ (by decide : 'I' ∈ ("Infinity").data)
      rcases List.mem_append.mp hIin with h1 | h2
      · exact absurd (hip_dig 'I' h1) (by decide)
      · rcases List.mem_cons.mp h2 with h3 | h4
        · exact absurd h3 (by decide)
        · exact absurd (hfp_dig 'I' h4) (by decide))]
    simp only []
    rw [takeWhile_append_stop isDigit _ '.' _ hip_dig (by decide),
        dropWhile_append_stop isDigit _ '.' _ hip_dig (by decide)]
    simp only []
    rw [takeWhile_all isDigit _ hfp_dig, dropWhile_all isDigit _ hfp_dig]
    rw [if_neg (fun hh => hip_ne hh.1)]
    show (match parseExp [] with
      | some e => mkFin neg (natOfDigits (P.take m ++ P.drop m)) (e - (P.drop m).length)
      | none => JNum.nan) = _
    show mkFin neg (natOfDigits (P.take m ++ P.drop m)) (0 - (P.drop m).length) = _
    rw [List.take_append_drop, hfp_len, hp, paddedOf_val]
    unfold mkFin
    have hneg : ¬ (0 : Int) ≤ 0 - (k : Nat) := by
      simp only [zero_sub, neg_nonneg, Int.natCast_nonpos_iff]
      exact hk
    rw [if_neg hneg]
    simp only []
    have htoNat : (-(0 - (k : Nat) : Int)).toNat = k := by omega
    rw [htoNat]
    obtain ⟨j, rfl⟩ : ∃ j, k = j + 1 := ⟨k - 1, by omega⟩
    unfold canon
    rw [if_neg (by
      intro hh
      refine han ?_
      cases hb : neg
      · rw [hb] at hh
        simp only [if_neg (by simp : ¬ false = true)] at hh
        omega
      · rw [hb] at hh
        simp only [if_pos rfl] at hh
        omega)]

theorem numBody_head (a k : Nat) :
    ∃ c rest, numBody a k = c :: rest ∧ isDigit c = true := by
  by_cases hk : k = 0
  · subst hk
    have hbody : numBody a 0 = natToDigits a := by unfold numBody; simp
    obtain ⟨c, rest, hcr⟩ := List.exists_cons_of_ne_nil (natToDigits_ne_nil a)
    exact ⟨c, rest, by rw [hbody, hcr], natToDigits_digits a c
      (hcr ▸ List.mem_cons_self c rest)⟩
  · have hlen := paddedOf_len a k
    set P := paddedOf a k with hp
    set m := P.length - k with hm
    have hip_ne : P.take m ≠ [] := by
      intro hh
      have := congrArg List.length hh
      simp only [List.length_take, List.length_nil] at this
      omega
    obtain ⟨c, rest, hcr⟩ := List.exists_cons_of_ne_nil hip_ne
    refine ⟨c, rest ++ '.' :: P.drop m, ?_, ?_⟩
    · rw [numBody_eq a k hk, ← hp, ← hm, hcr]
      simp
    · exact paddedOf_digits a k c (List.mem_of_mem_take
        (hcr ▸ List.mem_cons_self c rest))

theorem parseDec_cons_digit (c : Char) (rest : Str) (hc : isDigit c = true) :
    parseDec (c :: rest) = parseDecU false (c :: rest) := by
  unfold parseDec
  split
  · rename_i u heq
    injection heq with h1 h2
    subst h1
    exact absurd hc (by decide)
  · rename_i u heq
    injection heq with h1 h2
    subst h1
    exact absurd hc (by decide)
  · rfl

theorem parseDec_numToStr (n : Int) (k : Nat) (hcanon : k = 0 ∨ ¬ n % 10 = 0) :
    parseDec (numToStr n k) = .fin n k := by
  have hcanon' : k = 0 ∨ ¬ (n.natAbs % 10 = 0) := by
    rcases hcanon with h | h
    · left; exact h
    · right; intro hh; exact h (by omega)
  rw [numToStr_decomp]
  by_cases hneg : n < 0
  · rw [if_pos hneg]
    have harm : parseDec ('-' :: numBody n.natAbs k) =
        parseDecU true (numBody n.natAbs k) := rfl
    rw [show (['-'] ++ numBody n.natAbs k) = '-' :: numBody n.natAbs k from rfl,
      harm, parseDecU_numBody true n.natAbs k hcanon']
    rw [if_pos rfl]
    congr 1
    omega
  · rw [if_neg hneg]
    rw [List.nil_append]
    obtain ⟨c, rest, hbody, hcdig⟩ := numBody_head n.natAbs k
    rw [hbody, parseDec_cons_digit c rest hcdig, ← hbody,
      parseDecU_numBody false n.natAbs k hcanon']
    rw [if_neg (by simp : ¬ false = true)]
    congr 1
    omega

theorem jsNumber_numToStr (n : Int) (k : Nat) (hcanon : k = 0 ∨ ¬ n % 10 = 0) :
    jsNumber (numToStr n k) = .fin n k := by
  have hchars := numToStr_chars n k
  unfold jsNumber
  simp only []
  rw [numToStr_trim]
  split
  · rename_i heq
    exact absurd heq (numToStr_ne_nil n k)
  · rename_i c rest heq
    have hc : numCharP c := hchars c (heq ▸ (by simp : c ∈ '0' :: c :: rest))
    have hx : ¬(c = 'x' ∨ c = 'X') := by
      rintro (rfl | rfl) <;> exact absurd hc (by decide)
    have ho : ¬(c = 'o' ∨ c = 'O') := by
      rintro (rfl | rfl) <;> exact absurd hc (by decide)
    have hb : ¬(c = 'b' ∨ c = 'B') := by
      rintro (rfl | rfl) <;> exact absurd hc (by decide)
    rw [if_neg hx, if_neg ho, if_neg hb]
    exact parseDec_numToStr n k hcanon
  · exact parseDec_numToStr n k hcanon

theorem dot_mem_numToStr (n : Int) (k : Nat) (hk : k ≠ 0) : '.' ∈ numToStr n k := by
  rw [numToStr_decomp, numBody_eq n.natAbs k hk]
  simp

/-- The rendered number reparses to exactly the same canonical value. -/
theorem readValue_numToStr (n : Int) (k : Nat)
    (hcanon : k = 0 ∨ ¬ n % 10 = 0) (hfin : finOk n k = true)
    (h0 : ¬(n = 0 ∧ k = 0)) (h1 : ¬(n = 1 ∧ k = 0)) :
    readValue (numToStr n k) = .num n k := by
  have hchars := numToStr_chars n k
  have hword : ∀ (w : Str) (c : Char), c ∈ w → ¬ numCharP c → numToStr n k ≠ w :=
    fun w c hcw hcn he => hcn (hchars c (he ▸ hcw))
  have hne1 : numToStr n k ≠ ("1").data := by
    by_cases hk : k = 0
    · subst hk
      rw [numToStr_decomp]
      by_cases hneg : n < 0
      · rw [if_pos hneg]
        intro he
        have hh := congrArg (fun l => l.head?) he
        simp [numBody] at hh
      · rw [if_neg hneg, List.nil_append]
        intro he
        rw [show numBody n.natAbs 0 = natToDigits n.natAbs from by unfold numBody; simp] at he
        have hv := congrArg natOfDigits he
        rw [natOfDigits_natToDigits] at hv
        have hv2 : natOfDigits (("1").data) = 1 := by decide
        rw [hv2] at hv
        exact h1 ⟨by omega, rfl⟩
    · intro he
      have hdot := dot_mem_numToStr n k hk
      rw [he] at hdot
      exact absurd hdot (by decide)
  have hne0 : numToStr n k ≠ ("0").data := by
    by_cases hk : k = 0
    · subst hk
      rw [numToStr_decomp]
      by_cases hneg : n < 0
      · rw [if_pos hneg]
        intro he
        have hh := congrArg (fun l => l.head?) he
        simp [numBody] at hh
      · rw [if_neg hneg, List.nil_append]
        intro he
        rw [show numBody n.natAbs 0 = natToDigits n.natAbs from by unfold numBody; simp] at he
        have hv := congrArg natOfDigits he
        rw [natOfDigits_natToDigits] at hv
        have hv2 : natOfDigits (("0").data) = 0 := by decide
        rw [hv2] at hv
        exact h0 ⟨by omega, rfl⟩
    · intro he
      have hdot := dot_mem_numToStr n k hk
      rw [he] at hdot
      exact absurd hdot (by decide)
  unfold readValue
  simp only []
  rw [numToStr_trim]
  rw [if_neg (by
    rintro (he | he | he)
    · exact hword _ 't' (by decide) (by decide) he
    · exact hword _ 'y' (by decide) (by decide) he
    · exact hword _ 'o' (by decide) (by decide) he)]
  rw [if_neg hne1]
  rw [if_neg (by
    rintro (he | he | he)
    · exact hword _ 'f' (by decide) (by decide) he
    · exact hword _ 'n' (by decide) (by decide) he
    · exact hword _ 'o' (by decide) (by decide) he)]
  rw [if_neg hne0]
  rw [jsNumber_numToStr n k hcanon]
  simp only []
  rw [if_pos hfin]

/-! ### Processing one line -/

theorem processLine_header (doc : Doc) (cur : Option Str) (raw n : Str) :
    processLine doc cur ('[' :: (n ++ [']'])) raw = .ok (jsSet doc n [], some n) := by
  unfold processLine
  have h1 : headIs ('[' :: (n ++ [']'])) '[' = true := by simp [headIs]
  have h2 : lastIs ('[' :: (n ++ [']'])) ']' = true := by
    simp [lastIs, getLast?_cons_concat]
  have h3 : (('[' :: (n ++ [']'])).drop 1).dropLast = n := by simp
  rw [if_pos ⟨h1, h2⟩]
  simp only [h3]

theorem idxOf_key (k payload : Str) (hk : '=' ∉ k) :
    idxOf '=' (k ++ '=' :: payload) = some k.length := by
  induction k with
  | nil => simp [idxOf]
  | cons c t ih =>
    have hc : ¬ c = '=' := fun hh => hk (hh ▸ List.mem_cons_self c t)
    rw [List.cons_append, idxOf, if_neg hc, ih (fun hm => hk (List.mem_cons_of_mem c hm))]
    rfl

theorem take_key (k payload : Str) : (k ++ '=' :: payload).take k.length = k := by
  simpa using List.take_left k ('=' :: payload)

theorem drop_payload (k payload : Str) :
    (k ++ '=' :: payload).drop (k.length + 1) = payload := by
  have h1 : k ++ '=' :: payload = (k ++ ['=']) ++ payload := by simp
  have h2 : k.length + 1 = (k ++ ['=']).length := by simp
  rw [h1, h2]
  simpa using List.drop_left (k ++ ['=']) payload

theorem processLine_insert (doc : Doc) (cs raw k payload : Str)
    (hcs : cs ≠ []) (hraw : raw ≠ [])
    (hknil : k ≠ []) (hktrim : jsTrim k = k) (hkeq : '=' ∉ k)
    (hp1 : payload ≠ []) (hp2 : jsTrim payload = payload)
    (hpair : ¬(headIs k '[' = true ∧ lastIs payload ']' = true)) :
    processLine doc (some cs) (k ++ '=' :: payload) raw =
      (match insertKV ((alFind? doc cs).getD []) k (readValue payload) with
      | .ok sec2 => .ok (jsSet doc cs sec2, some cs)
      | .error e => .error e) := by
  have hhead : ¬(headIs (k ++ '=' :: payload) '[' = true ∧
      lastIs (k ++ '=' :: payload) ']' = true) := by
    rintro ⟨ha, hb⟩
    refine hpair ⟨?_, ?_⟩
    · obtain ⟨c, t, rfl⟩ := List.exists_cons_of_ne_nil hknil
      simpa [headIs] using ha
    · have hgl : (k ++ '=' :: payload).getLast? = payload.getLast? := by
        rw [List.getLast?_append_of_ne_nil _ (by simp)]
        obtain ⟨c, t, rfl⟩ := List.exists_cons_of_ne_nil hp1
        exact List.getLast?_cons_cons
      simp only [lastIs, hgl] at hb
      simpa [lastIs] using hb
  unfold processLine
  rw [if_neg hhead, idxOf_key k payload hkeq]
  simp only [take_key, drop_payload, hktrim, hp2]
  rw [if_neg (by rintro (h | h); exact hknil h; exact hp1 h)]
  rw [if_neg (by rintro (h | h); exact hcs h; exact hraw h)]

/-- The payload facts needed to process a rendered key line. -/
def payloadOK (payload : Str) : Prop :=
  payload ≠ [] ∧ jsTrim payload = payload ∧ '\n' ∉ payload

theorem lastIs_of_trim_ne (l : Str) (hfix : jsTrim l = l) (c : Char)
    (hc : wsChar c = true) : lastIs l c = false := by
  cases hl : l.getLast? with
  | none => simp [lastIs, hl]
  | some b =>
    have := fix_last_not_ws l hfix b hl
    simp only [lastIs, hl]
    by_cases hbc : b = c
    · subst hbc; rw [hc] at this; cases this
    · simp [hbc]

theorem lastIs_numToStr_ne (n : Int) (kk : Nat) (c : Char) (hc : ¬ numCharP c) :
    lastIs (numToStr n kk) c = false := by
  cases hl : (numToStr n kk).getLast? with
  | none => simp [lastIs, hl]
  | some b =>
    have hb := numToStr_chars n kk b (mem_of_getLast?_eq _ b hl)
    simp only [lastIs, hl]
    by_cases hbc : b = c
    · subst hbc; exact absurd hb hc
    · simp [hbc]

theorem str_payloadOK (k s : Str) (h : strValOK k s) : payloadOK s := by
  obtain ⟨hrv, hnl, _⟩ := h
  obtain ⟨hfix, hne⟩ := readValue_str_fix s hrv
  exact ⟨hne, hfix, hnl⟩

theorem readValue_yes : readValue (("yes").data) = V.bool true := by decide

theorem readValue_no : readValue (("no").data) = V.bool false := by decide

/-! ### Line facts of serialized documents -/

theorem header_facts (n : Str) (hn : '\n' ∉ n) :
    ('[' :: (n ++ [']'])) ≠ [] ∧ '\n' ∉ ('[' :: (n ++ [']'])) ∧
      jsTrim ('[' :: (n ++ [']'])) = ('[' :: (n ++ [']'])) ∧
      ¬ headIs ('[' :: (n ++ [']'])) '#' = true ∧
      ¬ headIs ('[' :: (n ++ [']'])) ';' = true ∧
      ¬ lastIs ('[' :: (n ++ [']'])) '\\' = true := by
  refine ⟨by simp, ?_, ?_, by simp [headIs], by simp [headIs], ?_⟩
  · intro hm
    rcases List.mem_cons.mp hm with h1 | h2
    · cases h1
    · rcases List.mem_append.mp h2 with h3 | h4
      · exact hn h3
      · simp at h4
  · refine jsTrim_eq_self _ ?_ ?_
    · intro c hc
      have h : '[' = c := by simpa using hc
      subst h; decide
    · intro c hc
      rw [getLast?_cons_concat] at hc
      have h : ']' = c := by simpa using hc
      subst h; decide
  · simp [lastIs, getLast?_cons_concat]

theorem kv_line_facts (k payload : Str) (hkey : keyOK k) (hp : payloadOK payload) :
    (k ++ '=' :: payload) ≠ [] ∧ '\n' ∉ (k ++ '=' :: payload) ∧
      jsTrim (k ++ '=' :: payload) = (k ++ '=' :: payload) ∧
      ¬ headIs (k ++ '=' :: payload) '#' = true ∧
      ¬ headIs (k ++ '=' :: payload) ';' = true := by
  obtain ⟨hk1, hk2, hk3, hk4, hk5, hk6⟩ := hkey
  obtain ⟨hp1, hp2, hp3⟩ := hp
  obtain ⟨c, t, rfl⟩ := List.exists_cons_of_ne_nil hk1
  have hchead : wsChar c = false := fix_head_not_ws _ hk2 c rfl
  refine ⟨by simp, ?_, ?_, ?_, ?_⟩
  · intro hm
    rcases List.mem_append.mp hm with h1 | h2
    · exact hk3 h1
    · rcases List.mem_cons.mp h2 with h3 | h4
      · cases h3
      · exact hp3 h4
  · refine jsTrim_eq_self _ ?_ ?_
    · intro e he
      have h : c = e := by simpa using he
      subst h
      exact hchead
    · intro e he
      rw [List.getLast?_append_of_ne_nil _ (by simp), show
        ('=' :: payload).getLast? = payload.getLast? from by
          obtain ⟨x, y, rfl⟩ := List.exists_cons_of_ne_nil hp1
          exact List.getLast?_cons_cons] at he
      exact fix_last_not_ws payload hp2 e he
  · simpa [headIs] using fun hh : c = '#' => hk5 (by simp [headIs, hh])
  · simpa [headIs] using fun hh : c = ';' => hk6 (by simp [headIs, hh])

/-! ### Reconstruction: parsing the serialized lines rebuilds the document -/

/-- Values whose rendered text survives the full round trip: Numbers `0`
and `1` would re-parse as Booleans, and a String ending in a backslash
would merge with the following newline. -/
def extraOK : V → Prop
  | .str s => ¬ lastIs s '\\' = true
  | .list l => ∀ s ∈ l, ¬ lastIs s '\\' = true
  | .num n kk => ¬(n = 0 ∧ kk = 0) ∧ ¬(n = 1 ∧ kk = 0)
  | .bool _ => True

instance : Inhabited V := ⟨.bool false⟩

theorem find_last {β : Type} [Inhabited β] (p : List (Str × β)) (k : Str) (v : β)
    (h : alFind? p k = none) : alFind? (p ++ [(k, v)]) k = some v := by
  rw [alFind?_append_right _ _ _ h]; simp [alFind?]

theorem jsSet_last {β : Type} [Inhabited β] (p : List (Str × β)) (k : Str) (v w : β)
    (h : alFind? p k = none) : jsSet (p ++ [(k, v)]) k w = p ++ [(k, w)] := by
  unfold jsSet
  rw [find_last p k v h]
  simp only [Option.isSome_some, if_true]
  exact setIn_append p [] k v w h

theorem jsSet_fresh {β : Type} [Inhabited β] (p : List (Str × β)) (k : Str) (w : β)
    (h : alFind? p k = none) (hp : ∀ x ∈ p.map Prod.fst, pairOK x k) :
    jsSet p k w = p ++ [(k, w)] := by
  unfold jsSet
  rw [h]
  simp only [Option.isSome_none, Bool.false_eq_true, if_false]
  exact objInsert_prefix k w p hp

theorem insertKV_fresh (secAcc : Sec) (key : Str) (pv : V)
    (hkfresh : alFind? secAcc key = none)
    (hins : ∀ x ∈ secAcc.map Prod.fst, pairOK x key) :
    insertKV secAcc key pv = .ok (secAcc ++ [(key, pv)]) := by
  cases pv with
  | str s =>
    unfold insertKV
    rw [hkfresh]
    exact congrArg Except.ok (jsSet_fresh secAcc key _ hkfresh hins)
  | bool b => exact congrArg Except.ok (jsSet_fresh secAcc key _ hkfresh hins)
  | num n kk => exact congrArg Except.ok (jsSet_fresh secAcc key _ hkfresh hins)
  | list l => exact congrArg Except.ok (jsSet_fresh secAcc key _ hkfresh hins)

theorem insertKV_promote_str (secAcc : Sec) (key e s : Str)
    (hkfresh : alFind? secAcc key = none) (he : e ≠ []) :
    insertKV (secAcc ++ [(key, V.str e)]) key (V.str s) =
      .ok (secAcc ++ [(key, V.list [e, s])]) := by
  unfold insertKV
  rw [find_last secAcc key _ hkfresh]
  simp only [isTruthy]
  rw [if_pos (by simpa using he)]
  exact congrArg Except.ok (jsSet_last secAcc key _ _ hkfresh)

theorem insertKV_push (secAcc : Sec) (key : Str) (cur : List Str) (s : Str)
    (hkfresh : alFind? secAcc key = none) :
    insertKV (secAcc ++ [(key, V.list cur)]) key (V.str s) =
      .ok (secAcc ++ [(key, V.list (cur ++ [s]))]) := by
  unfold insertKV
  rw [find_last secAcc key _ hkfresh]
  simp only [isTruthy, if_true]
  exact congrArg Except.ok (jsSet_last secAcc key _ _ hkfresh)

theorem runState_list_elems (raw : Str) (hraw : raw ≠ []) (acc : Doc) (cs : Str)
    (hcs : cs ≠ []) (hfind : alFind? acc cs = none) (key : Str) (hkOK : keyOK key) :
    ∀ (elems : List Str) (secAcc : Sec) (cur : List Str),
      alFind? secAcc key = none →
      (∀ s ∈ elems, strValOK key s) →
      runState (elems.map (fun v => key ++ '=' :: v))
        (acc ++ [(cs, secAcc ++ [(key, V.list cur)])]) (some cs) raw =
        .ok (acc ++ [(cs, secAcc ++ [(key, V.list (cur ++ elems))])], some cs) := by
  intro elems
  induction elems with
  | nil => intro secAcc cur _ _; simp [runState]
  | cons s es ih =>
    intro secAcc cur hkfresh helems
    obtain ⟨hrv, hnl, hpair⟩ := helems s (List.mem_cons_self s es)
    obtain ⟨hfix, hne⟩ := readValue_str_fix s hrv
    obtain ⟨hk1, hk2, _, hk4, _, _⟩ := hkOK
    rw [List.map_cons, runState,
      processLine_insert _ cs raw key s hcs hraw hk1 hk2 hk4 hne hfix hpair,
      find_last acc cs _ hfind]
    simp only [Option.getD_some]
    rw [hrv, insertKV_push secAcc key cur s hkfresh]
    simp only []
    rw [jsSet_last acc cs _ _ hfind]
    rw [ih secAcc (cur ++ [s]) hkfresh
      (fun t ht => helems t (List.mem_cons_of_mem s ht))]
    simp

theorem runState_kv (raw : Str) (hraw : raw ≠ []) (acc : Doc) (cs : Str)
    (hcs : cs ≠ []) (hfind : alFind? acc cs = none)
    (secAcc : Sec) (key : Str) (v : V)
    (hkfresh : alFind? secAcc key = none)
    (hins : ∀ x ∈ secAcc.map Prod.fst, pairOK x key)
    (hkOK : keyOK key) (hval : valOK key v) (hx : extraOK v) :
    runState (bareLines key v) (acc ++ [(cs, secAcc)]) (some cs) raw =
      .ok (acc ++ [(cs, secAcc ++ [(key, v)])], some cs) := by
  obtain ⟨hk1, hk2, hk3, hk4, hk5, hk6⟩ := hkOK
  cases v with
  | str s =>
    obtain ⟨hrv, hnl, hpair⟩ := hval
    obtain ⟨hfix, hne⟩ := readValue_str_fix s hrv
    rw [bareLines, runState,
      processLine_insert _ cs raw key s hcs hraw hk1 hk2 hk4 hne hfix hpair,
      find_last acc cs _ hfind]
    simp only [Option.getD_some]
    rw [hrv, insertKV_fresh secAcc key _ hkfresh hins]
    simp only []
    rw [jsSet_last acc cs _ _ hfind, runState]
  | bool b =>
    cases b with
    | true =>
      rw [show bareLines key (V.bool true) = [key ++ '=' :: ("yes").data] from rfl,
        runState,
        processLine_insert _ cs raw key _ hcs hraw hk1 hk2 hk4 (by decide) (by decide)
          (by rintro ⟨-, h⟩; revert h; decide),
        find_last acc cs _ hfind]
      simp only [Option.getD_some]
      rw [readValue_yes, insertKV_fresh secAcc key _ hkfresh hins]
      simp only []
      rw [jsSet_last acc cs _ _ hfind, runState]
    | false =>
      rw [show bareLines key (V.bool false) = [key ++ '=' :: ("no").data] from rfl,
        runState,
        processLine_insert _ cs raw key _ hcs hraw hk1 hk2 hk4 (by decide) (by decide)
          (by rintro ⟨-, h⟩; revert h; decide),
        find_last acc cs _ hfind]
      simp only [Option.getD_some]
      rw [readValue_no, insertKV_fresh secAcc key _ hkfresh hins]
      simp only []
      rw [jsSet_last acc cs _ _ hfind, runState]
  | num n kk =>
    obtain ⟨hcanon, hfin⟩ := hval
    obtain ⟨hx0, hx1⟩ := hx
    rw [bareLines, runState,
      processLine_insert _ cs raw key _ hcs hraw hk1 hk2 hk4 (numToStr_ne_nil n kk)
        (numToStr_trim n kk)
        (by
          rintro ⟨-, h⟩
          rw [lastIs_numToStr_ne n kk ']' (by decide)] at h
          cases h),
      find_last acc cs _ hfind]
    simp only [Option.getD_some]
    rw [readValue_numToStr n kk hcanon hfin hx0 hx1,
      insertKV_fresh secAcc key _ hkfresh hins]
    simp only []
    rw [jsSet_last acc cs _ _ hfind, runState]
  | list l =>
    obtain ⟨hlen, helems⟩ := hval
    obtain ⟨e1, l1, rfl⟩ := List.exists_cons_of_ne_nil
      (fun h : l = [] => by rw [h] at hlen; simp at hlen)
    obtain ⟨e2, es, rfl⟩ := List.exists_cons_of_ne_nil
      (fun h : l1 = [] => by rw [h] at hlen; simp at hlen)
    obtain ⟨hrv1, hnl1, hpair1⟩ := helems e1 (by simp)
    obtain ⟨hfix1, hne1⟩ := readValue_str_fix e1 hrv1
    obtain ⟨hrv2, hnl2, hpair2⟩ := helems e2 (by simp)
    obtain ⟨hfix2, hne2⟩ := readValue_str_fix e2 hrv2
    rw [show bareLines key (V.list (e1 :: e2 :: es)) = (key ++ '=' :: e1) ::
      (key ++ '=' :: e2) :: es.map (fun v => key ++ '=' :: v) from rfl]
    rw [runState,
      processLine_insert _ cs raw key e1 hcs hraw hk1 hk2 hk4 hne1 hfix1 hpair1,
      find_last acc cs _ hfind]
    simp only [Option.getD_some]
    rw [hrv1, insertKV_fresh secAcc key _ hkfresh hins]
    simp only []
    rw [jsSet_last acc cs _ _ hfind]
    rw [runState,
      processLine_insert _ cs raw key e2 hcs hraw hk1 hk2 hk4 hne2 hfix2 hpair2,
      find_last acc cs _ hfind]
    simp only [Option.getD_some]
    rw [hrv2, insertKV_promote_str secAcc key e1 e2 hkfresh hne1]
    simp only []
    rw [jsSet_last acc cs _ _ hfind]
    rw [runState_list_elems raw hraw acc cs hcs hfind key
      ⟨hk1, hk2, hk3, hk4, hk5, hk6⟩ es secAcc [e1, e2] hkfresh
      (fun t ht => helems t (by simp [ht]))]
    simp

theorem runState_sec (raw : Str) (hraw : raw ≠ []) (acc : Doc) (cs : Str)
    (hcs : cs ≠ []) (hfind : alFind? acc cs = none) :
    ∀ (rest : Sec) (secAcc : Sec),
      List.Pairwise pairOK ((secAcc ++ rest).map Prod.fst) →
      (∀ p ∈ rest, keyOK p.1 ∧ valOK p.1 p.2) →
      (∀ p ∈ rest, extraOK p.2) →
      runState (rest.flatMap (fun q => bareLines q.1 q.2))
        (acc ++ [(cs, secAcc)]) (some cs) raw =
        .ok (acc ++ [(cs, secAcc ++ rest)], some cs) := by
  intro rest
  induction rest with
  | nil => intro secAcc _ _ _; simp [runState]
  | cons q rest' ih =>
    intro secAcc hord hOK hx
    obtain ⟨key, v⟩ := q
    have hord' := hord
    have hmap : ((secAcc ++ (key, v) :: rest').map Prod.fst) =
        secAcc.map Prod.fst ++ key :: rest'.map Prod.fst := by simp
    rw [hmap, List.pairwise_append] at hord
    obtain ⟨h1, h2, h3⟩ := hord
    have hins : ∀ x ∈ secAcc.map Prod.fst, pairOK x key :=
      fun x hxm => h3 x hxm key (List.mem_cons_self _ _)
    have hkfresh : alFind? secAcc key = none := by
      rw [alFind?_none_iff]
      intro hmem
      exact (hins key hmem).2 rfl
    rw [List.flatMap_cons, runState_append,
      runState_kv raw hraw acc cs hcs hfind secAcc key v hkfresh hins
        (hOK _ (List.mem_cons_self _ _)).1 (hOK _ (List.mem_cons_self _ _)).2
        (hx _ (List.mem_cons_self _ _))]
    simp only []
    rw [ih (secAcc ++ [(key, v)])
      (by simpa [List.append_assoc] using hord')
      (fun p hp => hOK p (List.mem_cons_of_mem _ hp))
      (fun p hp => hx p (List.mem_cons_of_mem _ hp))]
    simp

theorem runState_doc (raw : Str) (hraw : raw ≠ []) :
    ∀ (rest : Doc) (acc : Doc) (cur : Option Str),
      List.Pairwise pairOK ((acc ++ rest).map Prod.fst) →
      (∀ p ∈ rest, '\n' ∉ p.1 ∧ (p.1 = [] → p.2 = []) ∧ secOK p.2) →
      (∀ p ∈ rest, ∀ q ∈ p.2, extraOK q.2) →
      ∃ c2, runState (rest.flatMap secLines) acc cur raw = .ok (acc ++ rest, c2) := by
  intro rest
  induction rest with
  | nil => intro acc cur _ _ _; exact ⟨cur, by simp [runState]⟩
  | cons p rest' ih =>
    intro acc cur hord hOK hx
    obtain ⟨n, sec⟩ := p
    have hord' := hord
    have hmap : ((acc ++ (n, sec) :: rest').map Prod.fst) =
        acc.map Prod.fst ++ n :: rest'.map Prod.fst := by simp
    rw [hmap, List.pairwise_append] at hord
    obtain ⟨h1, h2, h3⟩ := hord
    have hinsn : ∀ x ∈ acc.map Prod.fst, pairOK x n :=
      fun x hxm => h3 x hxm n (List.mem_cons_self _ _)
    have hnfresh : alFind? acc n = none := by
      rw [alFind?_none_iff]
      intro hm
      exact (hinsn n hm).2 rfl
    have hOK' : ∀ q ∈ rest', '\n' ∉ q.1 ∧ (q.1 = [] → q.2 = []) ∧ secOK q.2 :=
      fun q hq => hOK q (List.mem_cons_of_mem _ hq)
    have hx' : ∀ q ∈ rest', ∀ r ∈ q.2, extraOK r.2 :=
      fun q hq => hx q (List.mem_cons_of_mem _ hq)
    have hordih : List.Pairwise pairOK (((acc ++ [(n, sec)]) ++ rest').map Prod.fst) := by
      simpa [List.append_assoc] using hord'
    rw [List.flatMap_cons,
      show secLines (n, sec) = ('[' :: (n ++ [']'])) ::
        sec.flatMap (fun q => bareLines q.1 q.2) from rfl,
      List.cons_append, runState, processLine_header acc cur raw n,
      jsSet_fresh acc n [] hnfresh hinsn]
    simp only []
    rw [runState_append]
    by_cases hsec : sec = []
    · subst hsec
      simp only [List.flatMap_nil, List.nil_append]
      rw [show runState ([] : List Str) (acc ++ [(n, [])]) (some n) raw =
        .ok (acc ++ [(n, ([] : Sec))], some n) from rfl]
      simp only []
      obtain ⟨c2, hc2⟩ := ih (acc ++ [(n, [])]) (some n) hordih hOK' hx'
      exact ⟨c2, by rw [hc2]; simp⟩
    · have hn : n ≠ [] := fun hnil => hsec ((hOK _ (List.mem_cons_self _ _)).2.1 hnil)
      have hsecOK := (hOK _ (List.mem_cons_self _ _)).2.2
      rw [runState_sec raw hraw acc n hn hnfresh sec []
        (by simpa using hsecOK.1) hsecOK.2 (hx _ (List.mem_cons_self _ _))]
      simp only [List.nil_append]
      obtain ⟨c2, hc2⟩ := ih (acc ++ [(n, sec)]) (some n) hordih hOK' hx'
      exact ⟨c2, by rw [hc2]; simp⟩

/-! ### Line facts of a well-formed document, and the full round trip -/

theorem lastIs_kv (k payload : Str) (hp : payload ≠ []) (c : Char) :
    lastIs (k ++ '=' :: payload) c = lastIs payload c := by
  unfold lastIs
  rw [List.getLast?_append_of_ne_nil _ (by simp)]
  obtain ⟨x, y, rfl⟩ := List.exists_cons_of_ne_nil hp
  rw [List.getLast?_cons_cons]

theorem numToStr_no_nl (n : Int) (kk : Nat) : '\n' ∉ numToStr n kk :=
  fun hm => absurd (numToStr_chars n kk '\n' hm) (by decide)

theorem mem_bareLines_decomp (k : Str) (v : V) (hval : valOK k v) :
    ∀ l ∈ bareLines k v, ∃ payload, l = k ++ '=' :: payload ∧ payloadOK payload := by
  intro l hl
  cases v with
  | str s =>
    refine ⟨s, by simpa [bareLines] using hl, str_payloadOK k s hval⟩
  | bool b =>
    cases b with
    | true =>
      exact ⟨("yes").data, by simpa [bareLines] using hl, by decide, by decide, by decide⟩
    | false =>
      exact ⟨("no").data, by simpa [bareLines] using hl, by decide, by decide, by decide⟩
  | num n kk =>
    exact ⟨numToStr n kk, by simpa [bareLines] using hl,
      numToStr_ne_nil n kk, numToStr_trim n kk, numToStr_no_nl n kk⟩
  | list ls =>
    simp only [bareLines, List.mem_map] at hl
    obtain ⟨s, hs, rfl⟩ := hl
    exact ⟨s, rfl, str_payloadOK k s (hval.2 s hs)⟩

theorem mem_bareLines_bs (k : Str) (v : V) (hval : valOK k v) (hx : extraOK v) :
    ∀ l ∈ bareLines k v, ¬ lastIs l '\\' = true := by
  intro l hl
  cases v with
  | str s =>
    have hll : l = k ++ '=' :: s := by simpa [bareLines] using hl
    obtain ⟨_, hne⟩ := readValue_str_fix s hval.1
    rw [hll, lastIs_kv k s hne]
    exact hx
  | bool b =>
    cases b with
    | true =>
      have hll : l = k ++ '=' :: ("yes").data := by simpa [bareLines] using hl
      rw [hll, lastIs_kv k _ (by decide)]
      decide
    | false =>
      have hll : l = k ++ '=' :: ("no").data := by simpa [bareLines] using hl
      rw [hll, lastIs_kv k _ (by decide)]
      decide
  | num n kk =>
    have hll : l = k ++ '=' :: numToStr n kk := by simpa [bareLines] using hl
    rw [hll, lastIs_kv k _ (numToStr_ne_nil n kk),
      lastIs_numToStr_ne n kk '\\' (by decide)]
    simp
  | list ls =>
    simp only [bareLines, List.mem_map] at hl
    obtain ⟨s, hs, rfl⟩ := hl
    obtain ⟨_, hne⟩ := readValue_str_fix s (hval.2 s hs).1
    rw [lastIs_kv k s hne]
    exact hx s hs

theorem docLines_facts (d : Doc) (hdoc : docOK d) :
    ∀ l ∈ docLines d, l ≠ [] ∧ '\n' ∉ l ∧ jsTrim l = l ∧
      ¬ headIs l '#' = true ∧ ¬ headIs l ';' = true := by
  intro l hl
  rw [docLines] at hl
  obtain ⟨p, hp, hlp⟩ := List.mem_flatMap.mp hl
  obtain ⟨hnl, _, hsec⟩ := hdoc.2 p hp
  rw [secLines] at hlp
  rcases List.mem_cons.mp hlp with rfl | hkv
  · obtain ⟨f1, f2, f3, f4, f5, _⟩ := header_facts p.1 hnl
    exact ⟨f1, f2, f3, f4, f5⟩
  · obtain ⟨q, hq, hlq⟩ := List.mem_flatMap.mp hkv
    obtain ⟨hkOK, hvOK⟩ := hsec.2 q hq
    obtain ⟨payload, rfl, hpOK⟩ := mem_bareLines_decomp q.1 q.2 hvOK _ hlq
    exact kv_line_facts q.1 payload hkOK hpOK

theorem docLines_bs (d : Doc) (hdoc : docOK d)
    (hx : ∀ p ∈ d, ∀ q ∈ p.2, extraOK q.2) :
    ∀ l ∈ docLines d, ¬ lastIs l '\\' = true := by
  intro l hl
  rw [docLines] at hl
  obtain ⟨p, hp, hlp⟩ := List.mem_flatMap.mp hl
  obtain ⟨hnl, _, hsec⟩ := hdoc.2 p hp
  rw [secLines] at hlp
  rcases List.mem_cons.mp hlp with rfl | hkv
  · exact (header_facts p.1 hnl).2.2.2.2.2
  · obtain ⟨q, hq, hlq⟩ := List.mem_flatMap.mp hkv
    exact mem_bareLines_bs q.1 q.2 (hsec.2 q hq).2 (hx p hp q hq) _ hlq

theorem toString_trim_fix (d : Doc) : jsTrim (Ini.toString d) = Ini.toString d := by
  unfold toString
  exact jsTrim_idem _

theorem toString_raw_fix (d : Doc) (hd : d ≠ [])
    (hall : ∀ l ∈ docLines d, '\n' ∉ l ∧ jsTrim l = l ∧ l ≠ [])
    (hbs : ∀ l ∈ docLines d, ¬ lastIs l '\\' = true) :
    remove3 (remove2 (Ini.toString d)) = Ini.toString d := by
  obtain ⟨Y, lastL, hsplit, hmem, heq⟩ := toString_text d hd hall
  have hYmem : ∀ y ∈ Y, y = [] ∨ y ∈ docLines d := by
    intro y hy
    refine mem_bodyLines d y ?_
    rw [hsplit]
    exact List.mem_append_left _ hy
  have hY2 : ∀ y ∈ Y, '\n' ∉ y ∧ ¬ lastIs y '\\' = true := by
    intro y hy
    rcases hYmem y hy with rfl | hyd
    · exact ⟨by simp, by simp [lastIs]⟩
    · exact ⟨(hall y hyd).1, hbs y hyd⟩
  have hY3 : ∀ y ∈ Y, '\n' ∉ y ∧ ¬ lastIs y '\r' = true := by
    intro y hy
    rcases hYmem y hy with rfl | hyd
    · exact ⟨by simp, by simp [lastIs]⟩
    · refine ⟨(hall y hyd).1, ?_⟩
      rw [lastIs_of_trim_ne y (hall y hyd).2.1 '\r' (by decide)]
      simp
  rw [heq, remove2_of_noPair _
      (noPair_lines '\\' (by decide) lastL (hall lastL hmem).1 Y hY2),
    remove3_of_noPair _
      (noPair_lines '\r' (by decide) lastL (hall lastL hmem).1 Y hY3)]

theorem toString_ne_nil (d : Doc) (hd : d ≠ [])
    (hall : ∀ l ∈ docLines d, '\n' ∉ l ∧ jsTrim l = l ∧ l ≠ []) :
    Ini.toString d ≠ [] := by
  obtain ⟨Y, lastL, hsplit, hmem, heq⟩ := toString_text d hd hall
  rw [heq]
  intro hE
  exact (hall lastL hmem).2.2 (List.append_eq_nil.mp hE).2

theorem roundTrip (d : Doc) (hdoc : docOK d)
    (hx : ∀ p ∈ d, ∀ q ∈ p.2, extraOK q.2) (hd : d ≠ []) :
    fromString (Ini.toString d) = .ok d := by
  have hfacts := docLines_facts d hdoc
  have hall : ∀ l ∈ docLines d, '\n' ∉ l ∧ jsTrim l = l ∧ l ≠ [] :=
    fun l hl => ⟨(hfacts l hl).2.1, (hfacts l hl).2.2.1, (hfacts l hl).1⟩
  have hne : Ini.toString d ≠ [] := toString_ne_nil d hd hall
  rw [fromString_raw _ hne, toString_trim_fix,
    toString_raw_fix d hd hall (docLines_bs d hdoc hx),
    cleanLines_toString d (fun l hl => ⟨(hfacts l hl).2.1, (hfacts l hl).2.2.1,
      (hfacts l hl).1, (hfacts l hl).2.2.2.1, (hfacts l hl).2.2.2.2⟩),
    runLines_eq_runState]
  obtain ⟨c2, hc2⟩ := runState_doc (Ini.toString d) hne d [] none
    (by simpa using hdoc.1) hdoc.2 hx
  rw [docLines, hc2]
  rfl

/-! ### The parse invariant: every parsed document is well-formed -/

theorem setIn_keys {β : Type} [Inhabited β] (l : List (Str × β)) (k : Str) (w : β) :
    (setIn l k w).map Prod.fst = l.map Prod.fst := by
  induction l with
  | nil => rfl
  | cons p t ih =>
    obtain ⟨a, b⟩ := p
    unfold setIn
    by_cases ha : a = k
    · rw [if_pos ha]
      simp
    · rw [if_neg ha]
      simp [ih]

theorem secOK_jsSet (sec : Sec) (key : Str) (v : V) (hsec : secOK sec)
    (hkey : keyOK key) (hval : valOK key v) : secOK (jsSet sec key v) := by
  constructor
  · unfold jsSet
    by_cases hf : (alFind? sec key).isSome
    · rw [if_pos hf, setIn_keys]
      exact hsec.1
    · rw [if_neg hf]
      refine pairwise_objInsert key v sec ?_ hsec.1
      cases hx : alFind? sec key with
      | none => rfl
      | some s => rw [hx] at hf; simp at hf
  · intro p hp
    rcases mem_jsSet sec key v p hp with h1 | h2
    · exact hsec.2 p h1
    · rw [h2]
      exact ⟨hkey, hval⟩

theorem docOK_jsSet_sec (doc : Doc) (name : Str) (sec : Sec) (hdoc : docOK doc)
    (hn : '\n' ∉ name) (hne : name = [] → sec = []) (hsec : secOK sec) :
    docOK (jsSet doc name sec) := by
  constructor
  · unfold jsSet
    by_cases hf : (alFind? doc name).isSome
    · rw [if_pos hf, setIn_keys]
      exact hdoc.1
    · rw [if_neg hf]
      refine pairwise_objInsert name sec doc ?_ hdoc.1
      cases hx : alFind? doc name with
      | none => rfl
      | some s => rw [hx] at hf; simp at hf
  · intro p hp
    rcases mem_jsSet doc name sec p hp with h1 | h2
    · exact hdoc.2 p h1
    · rw [h2]
      exact ⟨hn, hne, hsec⟩

theorem idxOf_not_mem_take (c : Char) : ∀ (l : Str) (i : Nat),
    idxOf c l = some i → c ∉ l.take i := by
  intro l
  induction l with
  | nil => intro i h; simp [idxOf] at h
  | cons a t ih =>
    intro i h
    unfold idxOf at h
    by_cases ha : a = c
    · rw [if_pos ha] at h
      injection h with h2
      subst h2
      simp
    · rw [if_neg ha] at h
      cases hx : idxOf c t with
      | none => rw [hx] at h; cases h
      | some j =>
        rw [hx] at h
        injection h with h2
        subst h2
        rw [List.take_succ_cons]
        intro hm
        rcases List.mem_cons.mp hm with h3 | h4
        · exact ha h3.symm
        · exact ih j hx h4

theorem jsTrim_head? (x : Str) (c : Char) (hc : x.head? = some c)
    (hw : wsChar c = false) (hne : jsTrim x ≠ []) : (jsTrim x).head? = some c := by
  cases x with
  | nil => simp at hc
  | cons a t =>
    have hac : a = c := by simpa using hc
    subst hac
    have h1 : trimL (a :: t) = a :: t := trimL_cons_of_not_ws a t hw
    have h2 : jsTrim (a :: t) = trimR (a :: t) := by rw [jsTrim, h1]
    rw [h2] at hne ⊢
    obtain ⟨w, hspec, -⟩ := trimR_prefix (a :: t)
    calc (trimR (a :: t)).head? = ((trimR (a :: t)) ++ w).head? :=
          (head?_append_left _ w hne).symm
      _ = (a :: t).head? := by rw [← hspec]
      _ = some a := rfl

theorem jsTrim_getLast? (x : Str) (c : Char) (hc : x.getLast? = some c)
    (hw : wsChar c = false) (hne : jsTrim x ≠ []) : (jsTrim x).getLast? = some c := by
  have htL : trimL x ≠ [] := by
    intro h0
    rw [jsTrim, h0] at hne
    exact hne rfl
  obtain ⟨w, hspec, hws⟩ := trimL_spec x
  have hgl : (trimL x).getLast? = some c := by
    rw [hspec, List.getLast?_append_of_ne_nil _ htL] at hc
    exact hc
  have hfix : trimR (trimL x) = trimL x := trimR_fix_of_last _ c hgl hw
  rw [jsTrim, hfix, hgl]

theorem key_head? (l : Str) (i : Nat) (hl : jsTrim l = l) (hl0 : l ≠ [])
    (hne : jsTrim (l.take i) ≠ []) : (jsTrim (l.take i)).head? = l.head? := by
  obtain ⟨c, t, rfl⟩ := List.exists_cons_of_ne_nil hl0
  have hw : wsChar c = false := fix_head_not_ws _ hl c rfl
  cases i with
  | zero => rw [List.take_zero] at hne; exact absurd rfl hne
  | succ j =>
    rw [List.take_succ_cons] at hne ⊢
    exact jsTrim_head? _ c rfl hw hne

theorem value_getLast? (l : Str) (i : Nat) (hl : jsTrim l = l)
    (hne : jsTrim (l.drop i) ≠ []) : (jsTrim (l.drop i)).getLast? = l.getLast? := by
  have hdne : l.drop i ≠ [] := by
    intro h0
    rw [h0] at hne
    exact absurd rfl hne
  have hlne : l ≠ [] := by
    intro h0
    rw [h0] at hdne
    simp at hdne
  have hgl : (l.drop i).getLast? = l.getLast? := by
    conv_rhs => rw [← List.take_append_drop i l]
    rw [List.getLast?_append_of_ne_nil _ hdne]
  cases hc : l.getLast? with
  | none =>
    rw [List.getLast?_eq_getLast l hlne] at hc
    cases hc
  | some c =>
    have hw := fix_last_not_ws l hl c hc
    rw [jsTrim_getLast? _ c (hgl.trans hc) hw hne]

theorem headIs_eq_of_head? (x y : Str) (h : x.head? = y.head?) (c : Char) :
    headIs x c = headIs y c := by
  unfold headIs
  rw [h]

theorem lastIs_eq_of_getLast? (x y : Str) (h : x.getLast? = y.getLast?) (c : Char) :
    lastIs x c = lastIs y c := by
  unfold lastIs
  rw [h]

theorem readValue_ne_list (value : Str) (ls : List Str) : readValue value ≠ .list ls := by
  unfold readValue
  simp only []
  split_ifs
  · simp
  · simp
  · simp
  · simp
  · cases jsNumber (jsTrim value) with
    | nan => simp
    | inf => simp
    | fin n k => split <;> split_ifs <;> simp

theorem insertKV_inv (sec : Sec) (key value : Str) (sec2 : Sec)
    (hsec : secOK sec) (hkey : keyOK key)
    (hvnl : '\n' ∉ value) (hvfix : jsTrim value = value)
    (hpair : ¬(headIs key '[' = true ∧ lastIs value ']' = true))
    (h : insertKV sec key (readValue value) = .ok sec2) : secOK sec2 := by
  cases hrv : readValue value with
  | str s =>
    have hs : s = value := (readValue_str_arg value s hrv).trans hvfix
    subst hs
    have hsval : strValOK key s := ⟨hrv, hvnl, hpair⟩
    rw [hrv] at h
    unfold insertKV at h
    cases hf : alFind? sec key with
    | none =>
      rw [hf] at h
      injection h with h2
      exact h2 ▸ secOK_jsSet sec key _ hsec hkey hsval
    | some ex =>
      rw [hf] at h
      simp only [] at h
      by_cases ht : isTruthy ex = true
      · rw [if_pos ht] at h
        cases ex with
        | list ls =>
          injection h with h2
          obtain ⟨hlen, helems⟩ :=
            (hsec.2 (key, .list ls) (alFind?_mem sec key _ hf)).2
          refine h2 ▸ secOK_jsSet sec key _ hsec hkey ⟨?_, ?_⟩
          · rw [List.length_append]
            omega
          · intro t htm
            rcases List.mem_append.mp htm with h3 | h4
            · exact helems t h3
            · have ht4 : t = s := by simpa using h4
              exact ht4 ▸ hsval
        | str e =>
          injection h with h2
          have holde : strValOK key e :=
            (hsec.2 (key, .str e) (alFind?_mem sec key _ hf)).2
          refine h2 ▸ secOK_jsSet sec key _ hsec hkey ⟨by simp, ?_⟩
          intro t htm
          rcases List.mem_cons.mp htm with rfl | h4
          · exact holde
          · have ht4 : t = s := by simpa using h4
            exact ht4 ▸ hsval
        | bool b => cases h
        | num n kk => cases h
      · rw [if_neg ht] at h
        injection h with h2
        exact h2 ▸ secOK_jsSet sec key _ hsec hkey hsval
  | bool b =>
    rw [hrv] at h
    unfold insertKV at h
    injection h with h2
    exact h2 ▸ secOK_jsSet sec key _ hsec hkey trivial
  | num n kk =>
    rw [hrv] at h
    unfold insertKV at h
    injection h with h2
    exact h2 ▸ secOK_jsSet sec key _ hsec hkey (readValue_num_canon value n kk hrv)
  | list ls => exact absurd hrv (readValue_ne_list value ls)

theorem processLine_inv (doc : Doc) (cur : Option Str) (l raw : Str)
    (doc' : Doc) (cur' : Option Str)
    (hdoc : docOK doc) (hcur : ∀ cs, cur = some cs → '\n' ∉ cs)
    (hl1 : l ≠ []) (hl2 : jsTrim l = l) (hl3 : '\n' ∉ l)
    (hl4 : ¬ headIs l '#' = true) (hl5 : ¬ headIs l ';' = true)
    (h : processLine doc cur l raw = .ok (doc', cur')) :
    docOK doc' ∧ ∀ cs, cur' = some cs → '\n' ∉ cs := by
  unfold processLine at h
  by_cases hhdr : headIs l '[' = true ∧ lastIs l ']' = true
  · rw [if_pos hhdr] at h
    simp only [] at h
    rw [Except.ok.injEq, Prod.mk.injEq] at h
    obtain ⟨hd, hc⟩ := h
    subst hd
    subst hc
    have hnm : '\n' ∉ (l.drop 1).dropLast := fun hm =>
      hl3 ((l.drop_sublist 1).subset ((List.dropLast_sublist _).subset hm))
    refine ⟨docOK_jsSet_sec doc _ [] hdoc hnm (fun _ => rfl)
      ⟨List.Pairwise.nil, by simp⟩, ?_⟩
    intro cs hcs
    injection hcs with h2
    exact h2 ▸ hnm
  · rw [if_neg hhdr] at h
    cases hidx : idxOf '=' l with
    | none => rw [hidx] at h; cases h
    | some i =>
      rw [hidx] at h
      simp only [] at h
      by_cases hkv : jsTrim (l.take i) = [] ∨ jsTrim (l.drop (i + 1)) = []
      · rw [if_pos hkv] at h; cases h
      · rw [if_neg hkv] at h
        push_neg at hkv
        obtain ⟨hkne, hvne⟩ := hkv
        cases cur with
        | none => cases h
        | some cs =>
          simp only [] at h
          by_cases hcsr : cs = [] ∨ raw = []
          · rw [if_pos hcsr] at h; cases h
          · rw [if_neg hcsr] at h
            push_neg at hcsr
            cases hins : insertKV ((alFind? doc cs).getD []) (jsTrim (l.take i))
                (readValue (jsTrim (l.drop (i + 1)))) with
            | error e => rw [hins] at h; cases h
            | ok sec2 =>
              rw [hins] at h
              rw [Except.ok.injEq, Prod.mk.injEq] at h
              obtain ⟨hd, hc⟩ := h
              subst hd
              have hkh : (jsTrim (l.take i)).head? = l.head? :=
                key_head? l i hl2 hl1 hkne
              have hkey : keyOK (jsTrim (l.take i)) := by
                refine ⟨hkne, jsTrim_idem _, ?_, ?_, ?_, ?_⟩
                · exact fun hm => hl3 ((List.take_sublist i l).subset
                    (mem_jsTrim _ '\n' hm))
                · exact fun hm => idxOf_not_mem_take '=' l i hidx
                    (mem_jsTrim _ '=' hm)
                · rw [headIs_eq_of_head? _ l hkh]
                  exact hl4
                · rw [headIs_eq_of_head? _ l hkh]
                  exact hl5
              have hvl : (jsTrim (l.drop (i + 1))).getLast? = l.getLast? :=
                value_getLast? l (i + 1) hl2 hvne
              have hpair : ¬(headIs (jsTrim (l.take i)) '[' = true ∧
                  lastIs (jsTrim (l.drop (i + 1))) ']' = true) := by
                rw [headIs_eq_of_head? _ l hkh, lastIs_eq_of_getLast? _ l hvl]
                exact hhdr
              have hsec : secOK ((alFind? doc cs).getD []) := by
                cases hf : alFind? doc cs with
                | none => exact ⟨List.Pairwise.nil, by simp⟩
                | some s => exact (hdoc.2 _ (alFind?_mem doc cs s hf)).2.2
              have hsec2 : secOK sec2 :=
                insertKV_inv _ _ _ sec2 hsec hkey
                  (fun hm => hl3 ((List.drop_sublist (i + 1) l).subset
                    (mem_jsTrim _ '\n' hm)))
                  (jsTrim_idem _) hpair hins
              refine ⟨docOK_jsSet_sec doc cs sec2 hdoc (hcur cs rfl)
                (fun h0 => absurd h0 hcsr.1) hsec2, ?_⟩
              intro cs' hcs'
              rw [← hc] at hcs'
              injection hcs' with h2
              exact h2 ▸ hcur cs rfl

theorem runLines_inv : ∀ (ls : List Str) (doc : Doc) (cur : Option Str) (raw : Str)
    (d : Doc), docOK doc → (∀ cs, cur = some cs → '\n' ∉ cs) →
    (∀ l ∈ ls, l ≠ [] ∧ jsTrim l = l ∧ '\n' ∉ l ∧
      ¬ headIs l '#' = true ∧ ¬ headIs l ';' = true) →
    runLines ls doc cur raw = .ok d → docOK d := by
  intro ls
  induction ls with
  | nil =>
    intro doc cur raw d hdoc _ _ h
    rw [runLines] at h
    injection h with h2
    exact h2 ▸ hdoc
  | cons l t ih =>
    intro doc cur raw d hdoc hcur hfacts h
    rw [runLines] at h
    cases hp : processLine doc cur l raw with
    | error e => rw [hp] at h; cases h
    | ok p =>
      rw [hp] at h
      obtain ⟨f1, f2, f3, f4, f5⟩ := hfacts l (List.mem_cons_self _ _)
      obtain ⟨hd2, hc2⟩ := processLine_inv doc cur l raw p.1 p.2 hdoc hcur
        f1 f2 f3 f4 f5 hp
      exact ih p.1 p.2 raw d hd2 hc2
        (fun x hx => hfacts x (List.mem_cons_of_mem _ hx)) h

theorem cleanLines_facts (raw : Str) :
    ∀ l ∈ cleanLines raw, l ≠ [] ∧ jsTrim l = l ∧ '\n' ∉ l ∧
      ¬ headIs l '#' = true ∧ ¬ headIs l ';' = true := by
  intro l hl
  unfold cleanLines at hl
  rw [List.mem_filter] at hl
  obtain ⟨hl, hsemi⟩ := hl
  rw [List.mem_filter] at hl
  obtain ⟨hl, hhash⟩ := hl
  rw [List.mem_filter] at hl
  obtain ⟨hl, hlen⟩ := hl
  rw [List.mem_map] at hl
  obtain ⟨l0, hl0, rfl⟩ := hl
  refine ⟨?_, jsTrim_idem l0, ?_, ?_, ?_⟩
  · intro h0
    rw [h0] at hlen
    simp at hlen
  · exact fun hm => mem_splitNL_no_nl raw l0 hl0 (mem_jsTrim l0 '\n' hm)
  · simpa using hhash
  · simpa using hsemi

theorem parse_inv (t : Str) (d : Doc) (h : fromString t = .ok d) : docOK d := by
  by_cases ht : t = []
  · rw [ht, show fromString [] = .error .emptyInput from rfl] at h
    cases h
  · rw [fromString_raw t ht] at h
    exact runLines_inv _ [] none _ d ⟨List.Pairwise.nil, by simp⟩ (by simp)
      (cleanLines_facts _) h

/-! ### Decidability of the well-formedness predicates -/

instance (k k' : Str) : Decidable (pairOK k k') := by
  unfold pairOK; infer_instance

instance (k s : Str) : Decidable (strValOK k s) := by
  unfold strValOK; infer_instance

instance (k : Str) (v : V) : Decidable (valOK k v) := by
  cases v <;> (unfold valOK; infer_instance)

instance (k : Str) : Decidable (keyOK k) := by
  unfold keyOK; infer_instance

instance (s : Sec) : Decidable (secOK s) := by
  unfold secOK; infer_instance

instance (d : Doc) : Decidable (docOK d) := by
  unfold docOK; infer_instance

instance (v : V) : Decidable (extraOK v) := by
  cases v <;> (unfold extraOK; infer_instance)

/-! ### C7: serialization order -/

/-- C7 counterexample: a Document does not preserve insertion order of
section names. Parsing `[2]` before `[1]` stores section `1` first,
because JavaScript objects enumerate integer-like keys in ascending
numeric order ahead of other keys; serialization then emits `[1]` before
`[2]`, not in header-appearance order. -/
theorem C7_counterexample :
    fromString (("[2]\nA=x\n[1]\nB=y").data) =
      .ok [(("1").data, [(("B").data, V.str (("y").data))]),
           (("2").data, [(("A").data, V.str (("x").data))])] ∧
    Ini.toString [(("1").data, [(("B").data, V.str (("y").data))]),
           (("2").data, [(("A").data, V.str (("x").data))])] =
      ("[1]\nB=y\n\n[2]\nA=x").data :=
  ⟨by decide, by decide⟩

/-- C7 (amended): serialization follows the Document's stored property
enumeration order exactly: for every well-formed document (names in
JavaScript enumeration order — integer-like names ascending first, then
insertion order — with well-formed stored values), the content lines of
the serialized text are precisely the document's sections in stored
order, each header followed by its key lines in stored order. -/
theorem C7_amended (d : Doc) (hdoc : docOK d) :
    cleanLines (Ini.toString d) = docLines d := by
  have hfacts := docLines_facts d hdoc
  exact cleanLines_toString d (fun l hl => ⟨(hfacts l hl).2.1, (hfacts l hl).2.2.1,
    (hfacts l hl).1, (hfacts l hl).2.2.2.1, (hfacts l hl).2.2.2.2⟩)

/-- C7 witness: the amended theorem applied to a concrete document. -/
theorem C7_witness :
    docOK [(("S").data, [(("K").data, V.str (("v").data))])] ∧
      cleanLines (Ini.toString [(("S").data, [(("K").data, V.str (("v").data))])]) =
        docLines [(("S").data, [(("K").data, V.str (("v").data))])] :=
  ⟨by decide, C7_amended _ (by decide)⟩

/-! ### C1: the round-trip law -/

/-- C1 counterexample: the round trip is not the identity on all parsed
documents. `K=1.0` parses to Number 1, serializes as `K=1`, which
re-parses as Bool true (with a warning), not Number 1. -/
theorem C1_counterexample :
    fromString (("[S]\nK=1.0").data) =
      .ok [(("S").data, [(("K").data, V.num 1 0)])] ∧
    Ini.toString [(("S").data, [(("K").data, V.num 1 0)])] = ("[S]\nK=1").data ∧
    fromString (("[S]\nK=1").data) =
      .ok [(("S").data, [(("K").data, V.bool true)])] ∧
    ([(("S").data, [(("K").data, V.bool true)])] : Doc) ≠
      [(("S").data, [(("K").data, V.num 1 0)])] :=
  ⟨by decide, by decide, by decide, by decide⟩

/-- C1 (amended): for every Document produced by parse whose stored
values avoid the ambiguous renderings — no stored Number 0 or 1 (whose
text re-reads as a Boolean) and no stored String or list element ending
in a backslash (which would merge with the following newline) — and
which has at least one section, parsing the serialized text returns
exactly the same Document: same sections in the same order, same keys in
the same order, same value tags and payloads. -/
theorem C1_amended (t : Str) (d : Doc) (hparse : fromString t = .ok d)
    (hd : d ≠ []) (hx : ∀ p ∈ d, ∀ q ∈ p.2, extraOK q.2) :
    fromString (Ini.toString d) = .ok d :=
  roundTrip d (parse_inv t d hparse) hx hd

/-- C1 witness: the amended round trip applied to a concrete parse. -/
theorem C1_witness :
    fromString (("[Unit]\nDescription=deployer").data) =
      .ok [(("Unit").data, [(("Description").data, V.str (("deployer").data))])] ∧
    fromString (Ini.toString
      [(("Unit").data, [(("Description").data, V.str (("deployer").data))])]) =
      .ok [(("Unit").data, [(("Description").data, V.str (("deployer").data))])] :=
  ⟨by decide, C1_amended (("[Unit]\nDescription=deployer").data)
    [(("Unit").data, [(("Description").data, V.str (("deployer").data))])]
    (by decide) (by decide) (by decide)⟩

end Ini
